import Mathlib

/-!
Verification of the layered staker store of the platform chain and of its
property-based comparison harness, together with the snowman getter message
handlers and the merkledb node value digest.

The harness glue (system under test, command runners, flushBottomDiff,
addDiffOnTop, checkSystemAndModelContent, the rebuild command) is translated
from vms/platformvm/state/stakers_model_storage_test.go.  The layered store
itself (base State, Diff, stakersStorageModel) is not part of the provided
sources, so those components are modelled from the specification, with their
doc comments marking exactly what was modelled.

Conventions of the embedding:

- opaque identifiers (txID, nodeID, subnetID, block IDs) are natural numbers;
- timestamps and durations are integers (the source uses second and
  nanosecond precision int64 values; both sides of every comparison apply
  identical transformations, so the unit is abstracted);
- each staker index is an association list of staker records; point lookups
  search by the index key, ordered iteration sorts by the store total order;
- the transaction store (AddTx / GetTx) is not modelled: no claim under
  verification observes it;
- sorting and merging are implemented with structural recursion so that all
  definitions evaluate by kernel reduction.
-/

set_option maxHeartbeats 1000000
set_option linter.unusedSectionVars false
set_option linter.unusedVariables false

namespace AvalancheStakers

/-- Modelled from the spec: the staker priority enum with six current
variants and the matching pending variants (spec section 3). -/
inductive StakerPriority where
  | subnetPermissionedValidatorCurrent
  | subnetPermissionlessValidatorCurrent
  | primaryNetworkValidatorCurrent
  | subnetPermissionlessDelegatorCurrent
  | primaryNetworkDelegatorCurrent
  | subnetPermissionedValidatorPending
  | subnetPermissionlessValidatorPending
  | primaryNetworkValidatorPending
  | subnetPermissionlessDelegatorPending
  | primaryNetworkDelegatorPending
deriving DecidableEq, Repr

/-- Numeric tag of a priority, used inside the iteration sort key. -/
def StakerPriority.idx : StakerPriority → Int
  | .subnetPermissionedValidatorCurrent => 0
  | .subnetPermissionlessValidatorCurrent => 1
  | .primaryNetworkValidatorCurrent => 2
  | .subnetPermissionlessDelegatorCurrent => 3
  | .primaryNetworkDelegatorCurrent => 4
  | .subnetPermissionedValidatorPending => 5
  | .subnetPermissionlessValidatorPending => 6
  | .primaryNetworkValidatorPending => 7
  | .subnetPermissionlessDelegatorPending => 8
  | .primaryNetworkDelegatorPending => 9

/-- The three current validator priorities, exactly the ones the harness
commands scan for (stakers_model_storage_test.go lines 327-329). -/
def isCurrentValidatorPriority : StakerPriority → Bool
  | .subnetPermissionedValidatorCurrent => true
  | .subnetPermissionlessValidatorCurrent => true
  | .primaryNetworkValidatorCurrent => true
  | _ => false

/-- The two current delegator priorities, exactly the ones the harness
commands scan for (stakers_model_storage_test.go lines 942-943). -/
def isCurrentDelegatorPriority : StakerPriority → Bool
  | .subnetPermissionlessDelegatorCurrent => true
  | .primaryNetworkDelegatorCurrent => true
  | _ => false

/-- Modelled from the spec: the staker record (spec section 3). Reward
credentials are opaque and never compared by any claim, so they are omitted;
all other fields are carried. -/
@[ext] structure Staker where
  txID : Nat
  nodeID : Nat
  subnetID : Nat
  priority : StakerPriority
  weight : Nat
  startTime : Int
  endTime : Int
  nextTime : Int
deriving DecidableEq, Repr

/-- Validator index key: (subnetID, nodeID). -/
def vKey (s : Staker) : Nat × Nat := (s.subnetID, s.nodeID)

/-- Delegator index key: (subnetID, nodeID, txID). -/
def dKey (s : Staker) : Nat × Nat × Nat := (s.subnetID, s.nodeID, s.txID)

/-- Modelled from the spec: the iteration sort key. The store orders stakers
by (nextTime, txID); the remaining fields are appended so that the key is
injective on records, a refinement of the unspecified behaviour on full
(nextTime, txID) ties that both the production store and the model share. -/
def stakerSortKey (s : Staker) : List Int :=
  [s.nextTime, (s.txID : Int), (s.subnetID : Int), (s.nodeID : Int),
   s.priority.idx, (s.weight : Int), s.startTime, s.endTime]

/-- The total order used by every staker iterator. -/
abbrev StakerLe (s t : Staker) : Prop := stakerSortKey s ≤ stakerSortKey t

/-- Boolean version of the iterator order. -/
def stakerLeB (s t : Staker) : Bool := decide (StakerLe s t)

theorem stakerPriority_idx_inj :
    ∀ p q : StakerPriority, p.idx = q.idx → p = q := by
  intro p q h
  cases p <;> cases q <;> first | rfl | simp [StakerPriority.idx] at h

theorem stakerSortKey_inj {s t : Staker} (h : stakerSortKey s = stakerSortKey t) :
    s = t := by
  simp only [stakerSortKey, List.cons.injEq, and_true] at h
  obtain ⟨h1, h2, h3, h4, h5, h6, h7, h8⟩ := h
  ext <;> simp_all
  exact stakerPriority_idx_inj _ _ h5

instance : IsTrans Staker StakerLe :=
  ⟨fun _ _ _ h1 h2 => le_trans h1 h2⟩

instance : IsAntisymm Staker StakerLe :=
  ⟨fun _ _ h1 h2 => stakerSortKey_inj (le_antisymm h1 h2)⟩

instance : IsTotal Staker StakerLe :=
  ⟨fun a b => le_total (stakerSortKey a) (stakerSortKey b)⟩

theorem stakerLeB_eq_true_iff {s t : Staker} : stakerLeB s t = true ↔ StakerLe s t := by
  simp [stakerLeB]

theorem stakerLeB_false {s t : Staker} (h : stakerLeB s t = false) : StakerLe t s := by
  rcases total_of StakerLe s t with h' | h'
  · rw [← stakerLeB_eq_true_iff] at h'
    simp [h] at h'
  · exact h'

/-- Insert a staker into a list sorted by the store order, keeping it sorted. -/
def insertStakerSorted (s : Staker) : List Staker → List Staker
  | [] => [s]
  | t :: ts => if stakerLeB s t then s :: t :: ts else t :: insertStakerSorted s ts

/-- Modelled from the spec: ordered iteration over an index enumerates its
records in the store total order (spec sections 3 and 4.1). -/
def sortStakers (l : List Staker) : List Staker := l.foldr insertStakerSorted []

theorem insertStakerSorted_perm (s : Staker) (l : List Staker) :
    (insertStakerSorted s l).Perm (s :: l) := by
  induction l with
  | nil => simp [insertStakerSorted]
  | cons t ts ih =>
    simp only [insertStakerSorted]
    by_cases h : stakerLeB s t
    · simp [h]
    · simp only [h, if_false]
      exact (ih.cons t).trans (List.Perm.swap s t ts)

theorem mem_insertStakerSorted {x s : Staker} {l : List Staker} :
    x ∈ insertStakerSorted s l ↔ x = s ∨ x ∈ l := by
  rw [(insertStakerSorted_perm s l).mem_iff]
  simp

theorem insertStakerSorted_sorted {s : Staker} {l : List Staker}
    (h : l.Pairwise StakerLe) :
    (insertStakerSorted s l).Pairwise StakerLe := by
  induction l with
  | nil => simp [insertStakerSorted]
  | cons t ts ih =>
    rw [List.pairwise_cons] at h
    obtain ⟨ht, hts⟩ := h
    simp only [insertStakerSorted]
    by_cases hle : stakerLeB s t
    · rw [if_pos hle, List.pairwise_cons]
      refine ⟨?_, List.pairwise_cons.mpr ⟨ht, hts⟩⟩
      intro b hb
      rcases List.mem_cons.mp hb with hb | hb
      · subst hb
        exact stakerLeB_eq_true_iff.mp hle
      · exact Trans.trans (stakerLeB_eq_true_iff.mp hle) (ht b hb)
    · rw [if_neg hle, List.pairwise_cons]
      refine ⟨?_, ih hts⟩
      intro b hb
      rcases mem_insertStakerSorted.mp hb with hb | hb
      · subst hb
        exact stakerLeB_false (by simpa using hle)
      · exact ht b hb

theorem sortStakers_perm (l : List Staker) : (sortStakers l).Perm l := by
  induction l with
  | nil => simp [sortStakers]
  | cons s ts ih =>
    simp only [sortStakers, List.foldr_cons]
    exact (insertStakerSorted_perm s _).trans (ih.cons s)

theorem sortStakers_sorted (l : List Staker) :
    (sortStakers l).Pairwise StakerLe := by
  induction l with
  | nil => simp [sortStakers]
  | cons s ts ih =>
    simp only [sortStakers, List.foldr_cons]
    exact insertStakerSorted_sorted ih

theorem sortStakers_eq_of_perm {l₁ l₂ : List Staker} (h : l₁.Perm l₂) :
    sortStakers l₁ = sortStakers l₂ :=
  List.eq_of_perm_of_sorted ((sortStakers_perm l₁).trans (h.trans (sortStakers_perm l₂).symm))
    (sortStakers_sorted l₁) (sortStakers_sorted l₂)

theorem sorted_eq_sortStakers {l : List Staker} (h : l.Pairwise StakerLe) :
    sortStakers l = l :=
  List.eq_of_perm_of_sorted (sortStakers_perm l) (sortStakers_sorted l) h

/-- Fuel-driven merge of two streams already ordered by the store order:
the functional counterpart of the merging iterator of spec section 4.5. -/
def mergeStakersAux : Nat → List Staker → List Staker → List Staker
  | 0, xs, ys => xs ++ ys
  | _ + 1, [], ys => ys
  | _ + 1, x :: xs, [] => x :: xs
  | n + 1, x :: xs, y :: ys =>
    if stakerLeB x y then x :: mergeStakersAux n xs (y :: ys)
    else y :: mergeStakersAux n (x :: xs) ys

/-- Modelled from the spec: the merging iterator fuses two time-ordered
staker streams into one (spec section 4.5). -/
def mergeStakers (xs ys : List Staker) : List Staker :=
  mergeStakersAux (xs.length + ys.length) xs ys

theorem mergeStakersAux_perm :
    ∀ (n : Nat) (xs ys : List Staker), (mergeStakersAux n xs ys).Perm (xs ++ ys)
  | 0, xs, ys => List.Perm.refl _
  | _ + 1, [], ys => by simp [mergeStakersAux]
  | _ + 1, _ :: _, [] => by simp [mergeStakersAux]
  | n + 1, x :: xs, y :: ys => by
    simp only [mergeStakersAux]
    by_cases h : stakerLeB x y
    · rw [if_pos h]
      exact ((mergeStakersAux_perm n xs (y :: ys)).cons x)
    · rw [if_neg h]
      refine ((mergeStakersAux_perm n (x :: xs) ys).cons y).trans ?_
      have : (y :: (x :: xs) ++ ys).Perm ((x :: xs) ++ y :: ys) :=
        List.perm_middle.symm
      simpa using this

theorem mergeStakers_perm (xs ys : List Staker) :
    (mergeStakers xs ys).Perm (xs ++ ys) :=
  mergeStakersAux_perm _ xs ys

theorem mergeStakersAux_sorted :
    ∀ (n : Nat) {xs ys : List Staker}, xs.length + ys.length ≤ n →
      xs.Pairwise StakerLe → ys.Pairwise StakerLe →
      (mergeStakersAux n xs ys).Pairwise StakerLe
  | 0, xs, ys, hn, hx, hy => by
    have hx0 : xs = [] := by
      cases xs with
      | nil => rfl
      | cons a as => simp at hn
    have hy0 : ys = [] := by
      cases ys with
      | nil => rfl
      | cons a as => rw [hx0] at hn; simp at hn
    subst hx0; subst hy0
    simp [mergeStakersAux]
  | n + 1, [], ys, _, _, hy => by simpa [mergeStakersAux] using hy
  | n + 1, x :: xs, [], _, hx, _ => by simpa [mergeStakersAux] using hx
  | n + 1, x :: xs, y :: ys, hn, hx, hy => by
    rw [List.pairwise_cons] at hx hy
    obtain ⟨hxall, hxs⟩ := hx
    obtain ⟨hyall, hys⟩ := hy
    have hn' : xs.length + (y :: ys).length ≤ n := by
      simp only [List.length_cons] at hn ⊢; omega
    have hn'' : (x :: xs).length + ys.length ≤ n := by
      simp only [List.length_cons] at hn ⊢; omega
    simp only [mergeStakersAux]
    by_cases h : stakerLeB x y
    · rw [if_pos h, List.pairwise_cons]
      refine ⟨?_, mergeStakersAux_sorted n hn' hxs (List.pairwise_cons.mpr ⟨hyall, hys⟩)⟩
      intro b hb
      have hb' : b ∈ xs ++ y :: ys := (mergeStakersAux_perm n xs (y :: ys)).mem_iff.mp hb
      rcases List.mem_append.mp hb' with hb' | hb'
      · exact hxall b hb'
      · rcases List.mem_cons.mp hb' with hb' | hb'
        · subst hb'; exact stakerLeB_eq_true_iff.mp h
        · exact Trans.trans (stakerLeB_eq_true_iff.mp h) (hyall b hb')
    · rw [if_neg h, List.pairwise_cons]
      have hyx : StakerLe y x := stakerLeB_false (by simpa using h)
      refine ⟨?_, mergeStakersAux_sorted n hn'' (List.pairwise_cons.mpr ⟨hxall, hxs⟩) hys⟩
      intro b hb
      have hb' : b ∈ (x :: xs) ++ ys := (mergeStakersAux_perm n (x :: xs) ys).mem_iff.mp hb
      rcases List.mem_append.mp hb' with hb' | hb'
      · rcases List.mem_cons.mp hb' with hb' | hb'
        · subst hb'; exact hyx
        · exact Trans.trans hyx (hxall b hb')
      · exact hyall b hb'

theorem mergeStakers_sorted {xs ys : List Staker}
    (hx : xs.Pairwise StakerLe) (hy : ys.Pairwise StakerLe) :
    (mergeStakers xs ys).Pairwise StakerLe :=
  mergeStakersAux_sorted _ le_rfl hx hy

theorem mergeStakers_eq_sort {xs ys : List Staker}
    (hx : xs.Pairwise StakerLe) (hy : ys.Pairwise StakerLe) :
    mergeStakers xs ys = sortStakers (xs ++ ys) :=
  List.eq_of_perm_of_sorted
    ((mergeStakers_perm xs ys).trans (sortStakers_perm (xs ++ ys)).symm)
    (mergeStakers_sorted hx hy) (sortStakers_sorted _)

section IndexOps

variable {κ : Type} [DecidableEq κ]

/-- Point lookup in one staker index: the first record whose key matches. -/
def lookupIndex (key : Staker → κ) (k : κ) (l : List Staker) : Option Staker :=
  l.find? (fun s => decide (key s = k))

/-- An index is well formed when no two records share a key. -/
abbrev NodupKeys (key : Staker → κ) (l : List Staker) : Prop := (l.map key).Nodup

/-- Replace every record sharing the key of s by s. -/
def replaceByKey (key : Staker → κ) (s : Staker) (l : List Staker) : List Staker :=
  l.map (fun t => if key t = key s then s else t)

/-- Drop every record with the given key. -/
def removeKey (key : Staker → κ) (k : κ) (l : List Staker) : List Staker :=
  l.filter (fun t => decide (¬ key t = k))

theorem lookupIndex_nil (key : Staker → κ) (k : κ) : lookupIndex key k [] = none := rfl

theorem lookupIndex_cons (key : Staker → κ) (k : κ) (s : Staker) (l : List Staker) :
    lookupIndex key k (s :: l) = if key s = k then some s else lookupIndex key k l := by
  by_cases h : key s = k
  · rw [if_pos h]
    exact List.find?_cons_of_pos _ (by simpa using h)
  · rw [if_neg h]
    exact List.find?_cons_of_neg _ (by simpa using h)

theorem lookupIndex_eq_none_iff {key : Staker → κ} {k : κ} {l : List Staker} :
    lookupIndex key k l = none ↔ k ∉ l.map key := by
  rw [lookupIndex, List.find?_eq_none]
  simp only [List.mem_map, decide_eq_true_eq, not_exists, not_and]

theorem lookupIndex_eq_some {key : Staker → κ} {k : κ} {l : List Staker} {s : Staker}
    (h : lookupIndex key k l = some s) : s ∈ l ∧ key s = k := by
  refine ⟨List.mem_of_find?_eq_some h, ?_⟩
  have := List.find?_some h
  simpa using this

theorem lookupIndex_isSome_iff {key : Staker → κ} {k : κ} {l : List Staker} :
    (lookupIndex key k l).isSome ↔ k ∈ l.map key := by
  rcases h : lookupIndex key k l with _ | s
  · simpa using (lookupIndex_eq_none_iff).mp h
  · simp only [Option.isSome_some, true_iff]
    obtain ⟨hmem, hks⟩ := lookupIndex_eq_some h
    exact hks ▸ List.mem_map_of_mem key hmem

theorem lookupIndex_self_of_nodup {key : Staker → κ} {l : List Staker} {s : Staker}
    (h : NodupKeys key l) (hs : s ∈ l) : lookupIndex key (key s) l = some s := by
  induction l with
  | nil => cases hs
  | cons t ts ih =>
    simp only [NodupKeys, List.map_cons, List.nodup_cons] at h
    obtain ⟨hnt, hts⟩ := h
    rcases List.mem_cons.mp hs with hs | hs
    · subst hs
      rw [lookupIndex_cons, if_pos rfl]
    · rw [lookupIndex_cons]
      have hne : key t ≠ key s := by
        intro hEq
        exact hnt (hEq ▸ List.mem_map_of_mem key hs)
      rw [if_neg hne]
      exact ih hts hs

theorem mem_iff_lookupIndex {key : Staker → κ} {l : List Staker} {s : Staker}
    (h : NodupKeys key l) : s ∈ l ↔ lookupIndex key (key s) l = some s := by
  constructor
  · exact lookupIndex_self_of_nodup h
  · intro hl
    exact (lookupIndex_eq_some hl).1

theorem nodupKeys_of_perm {key : Staker → κ} {l₁ l₂ : List Staker}
    (hp : l₁.Perm l₂) (h : NodupKeys key l₁) : NodupKeys key l₂ :=
  ((hp.map key).nodup_iff).mp h

theorem lookupIndex_eq_of_perm {key : Staker → κ} {l₁ l₂ : List Staker}
    (hp : l₁.Perm l₂) (h₁ : NodupKeys key l₁) (k : κ) :
    lookupIndex key k l₁ = lookupIndex key k l₂ := by
  have h₂ : NodupKeys key l₂ := nodupKeys_of_perm hp h₁
  rcases h : lookupIndex key k l₁ with _ | s
  · have hk : k ∉ l₁.map key := lookupIndex_eq_none_iff.mp h
    have hk₂ : k ∉ l₂.map key := fun hmem => hk ((hp.map key).mem_iff.mpr hmem)
    exact (lookupIndex_eq_none_iff.mpr hk₂).symm
  · obtain ⟨hmem, hks⟩ := lookupIndex_eq_some h
    have hmem₂ : s ∈ l₂ := hp.mem_iff.mp hmem
    rw [← hks]
    exact (lookupIndex_self_of_nodup h₂ hmem₂).symm

theorem perm_of_lookupIndex_eq {key : Staker → κ} {l₁ l₂ : List Staker}
    (h₁ : NodupKeys key l₁) (h₂ : NodupKeys key l₂)
    (h : ∀ k, lookupIndex key k l₁ = lookupIndex key k l₂) : l₁.Perm l₂ := by
  rw [List.perm_ext_iff_of_nodup (List.Nodup.of_map key h₁) (List.Nodup.of_map key h₂)]
  intro s
  rw [mem_iff_lookupIndex h₁, mem_iff_lookupIndex h₂, h (key s)]

theorem lookupIndex_append (key : Staker → κ) (k : κ) (l₁ l₂ : List Staker) :
    lookupIndex key k (l₁ ++ l₂) = (lookupIndex key k l₁).or (lookupIndex key k l₂) := by
  simp [lookupIndex, List.find?_append]

theorem lookupIndex_filter_key (key : Staker → κ) (p : κ → Bool) (k : κ) (l : List Staker) :
    lookupIndex key k (l.filter (fun t => p (key t))) =
      if p k then lookupIndex key k l else none := by
  induction l with
  | nil => simp [lookupIndex_nil]
  | cons t ts ih =>
    rw [List.filter_cons]
    by_cases hpt : p (key t) = true
    · rw [if_pos hpt, lookupIndex_cons, lookupIndex_cons]
      by_cases hk : key t = k
      · subst hk
        rw [if_pos rfl, if_pos hpt, if_pos rfl]
      · rw [if_neg hk, if_neg hk, ih]
    · rw [if_neg hpt, ih, lookupIndex_cons]
      by_cases hk : key t = k
      · subst hk
        rw [if_neg hpt, if_neg hpt]
      · by_cases hpk : p k = true
        · rw [if_pos hpk, if_pos hpk, if_neg hk]
        · rw [if_neg hpk, if_neg hpk]

theorem lookupIndex_removeKey (key : Staker → κ) (k k' : κ) (l : List Staker) :
    lookupIndex key k (removeKey key k' l) =
      if k = k' then none else lookupIndex key k l := by
  induction l with
  | nil => simp [removeKey, lookupIndex_nil]
  | cons t ts ih =>
    rw [removeKey, List.filter_cons]
    by_cases ht : key t = k'
    · rw [if_neg (by simpa using ht)]
      rw [show List.filter (fun t => decide (¬ key t = k')) ts = removeKey key k' ts from rfl, ih]
      by_cases hk : k = k'
      · rw [if_pos hk, if_pos hk]
      · rw [if_neg hk, if_neg hk, lookupIndex_cons, if_neg (fun hEq => hk (hEq.symm.trans ht))]
    · rw [if_pos (by simpa using ht)]
      rw [lookupIndex_cons, lookupIndex_cons]
      rw [show List.filter (fun t => decide (¬ key t = k')) ts = removeKey key k' ts from rfl, ih]
      by_cases hk2 : key t = k
      · have hkk' : ¬ k = k' := fun hEq => ht (hk2.trans hEq)
        rw [if_pos hk2, if_neg hkk', if_pos hk2]
      · rw [if_neg hk2, if_neg hk2]

theorem keysOf_replaceByKey (key : Staker → κ) (s : Staker) (l : List Staker) :
    (replaceByKey key s l).map key = l.map key := by
  induction l with
  | nil => rfl
  | cons t ts ih =>
    simp only [replaceByKey, List.map_cons] at ih ⊢
    by_cases h : key t = key s
    · rw [if_pos h, ih, ← h]
    · rw [if_neg h, ih]

theorem lookupIndex_replaceByKey (key : Staker → κ) (s : Staker) (k : κ) (l : List Staker) :
    lookupIndex key k (replaceByKey key s l) =
      if k = key s then (if (lookupIndex key k l).isSome then some s else none)
      else lookupIndex key k l := by
  induction l with
  | nil => simp [replaceByKey, lookupIndex_nil]
  | cons t ts ih =>
    simp only [replaceByKey, List.map_cons] at ih ⊢
    by_cases h : key t = key s
    · rw [if_pos h, lookupIndex_cons, lookupIndex_cons]
      by_cases hk : k = key s
      · subst hk
        rw [if_pos rfl, if_pos rfl, if_pos h, Option.isSome_some, if_pos rfl]
      · have hsk : ¬ key s = k := fun hEq => hk hEq.symm
        have htk : ¬ key t = k := fun hEq => hsk (h ▸ hEq)
        rw [if_neg hsk, if_neg htk, ih, if_neg hk]
    · rw [if_neg h, lookupIndex_cons, lookupIndex_cons]
      by_cases hk : key t = k
      · have hks : ¬ k = key s := fun hEq => h (hk.trans hEq)
        rw [if_pos hk, if_neg hks, if_pos hk]
      · rw [if_neg hk, ih, if_neg hk]

theorem nodupKeys_filter {key : Staker → κ} {l : List Staker} (p : Staker → Bool)
    (h : NodupKeys key l) : NodupKeys key (l.filter p) :=
  List.Nodup.sublist ((List.filter_sublist l).map key) h

theorem nodupKeys_removeKey {key : Staker → κ} {l : List Staker} (k : κ)
    (h : NodupKeys key l) : NodupKeys key (removeKey key k l) :=
  nodupKeys_filter _ h

theorem nodupKeys_replaceByKey {key : Staker → κ} {l : List Staker} (s : Staker)
    (h : NodupKeys key l) : NodupKeys key (replaceByKey key s l) := by
  rw [NodupKeys, keysOf_replaceByKey]
  exact h

theorem lookupIndex_reverse {key : Staker → κ} {l : List Staker}
    (h : NodupKeys key l) (k : κ) :
    lookupIndex key k l.reverse = lookupIndex key k l := by
  have hrev : NodupKeys key l.reverse := by
    simp only [NodupKeys, List.map_reverse, List.nodup_reverse]
    exact h
  apply lookupIndex_eq_of_perm (List.reverse_perm l) hrev

end IndexOps

/-- Modelled from the spec: the error kinds of the store that the claims
observe (spec section 7). -/
inductive StoreErr where
  | duplicateStaker
  | notFound
deriving DecidableEq, Repr

/-- Modelled from the spec: the overlay a diff keeps for one index, three
maps keyed by the primary key: added, updated, and deleted tombstones
(spec section 4.4). -/
structure DiffIndex (κ : Type) where
  added : List Staker
  updated : List Staker
  deleted : List κ
deriving DecidableEq, Repr

/-- The overlay of a freshly created diff: no recorded change. -/
def emptyDiffIndex {κ : Type} : DiffIndex κ := ⟨[], [], []⟩

/-- Modelled from the spec: a diff records a parent identifier and one
overlay per staker index (spec section 4.4). -/
structure Diff where
  parentID : Nat
  currentValidatorsDiff : DiffIndex (Nat × Nat)
  currentDelegatorsDiff : DiffIndex (Nat × Nat × Nat)
  pendingValidatorsDiff : DiffIndex (Nat × Nat)
  pendingDelegatorsDiff : DiffIndex (Nat × Nat × Nat)
deriving DecidableEq, Repr

/-- A freshly allocated diff on top of the given parent. -/
def newDiff (parentID : Nat) : Diff :=
  ⟨parentID, emptyDiffIndex, emptyDiffIndex, emptyDiffIndex, emptyDiffIndex⟩

section DiffOps

variable {κ : Type} [DecidableEq κ]

/-- Modelled from the spec: reads on a diff consult deleted, then updated,
then added, then recurse into the parent (spec section 4.4). -/
def diffIndexLookup (key : Staker → κ) (di : DiffIndex κ) (k : κ)
    (parent : Option Staker) : Option Staker :=
  if k ∈ di.deleted then none
  else ((lookupIndex key k di.updated).or (lookupIndex key k di.added)).or parent

/-- Modelled from the spec: Put on a tombstoned key revives it into updated
(parent still holds the identity) or added (parent lacks it); otherwise the
insert fails as a duplicate when the identity is visible locally or in the
parent (spec section 4.4). -/
def diffIndexPut (key : Staker → κ) (di : DiffIndex κ) (s : Staker)
    (parent : Option Staker) : Except StoreErr (DiffIndex κ) :=
  if key s ∈ di.deleted then
    if parent.isSome then
      .ok ⟨di.added, s :: di.updated, di.deleted.erase (key s)⟩
    else
      .ok ⟨s :: di.added, di.updated, di.deleted.erase (key s)⟩
  else if (lookupIndex key (key s) di.updated).isSome
      || (lookupIndex key (key s) di.added).isSome
      || parent.isSome then
    .error .duplicateStaker
  else
    .ok ⟨s :: di.added, di.updated, di.deleted⟩

/-- Modelled from the spec: Update requires a matching record in this diff
or in some ancestor and writes the replacement so that it shadows the old
record; a record that this diff itself inserted is replaced in place, which
keeps the three maps disjoint (spec section 4.4). -/
def diffIndexUpdate (key : Staker → κ) (di : DiffIndex κ) (s : Staker)
    (parent : Option Staker) : Except StoreErr (DiffIndex κ) :=
  if key s ∈ di.deleted then .error .notFound
  else if (lookupIndex key (key s) di.added).isSome then
    .ok ⟨replaceByKey key s di.added, di.updated, di.deleted⟩
  else if (lookupIndex key (key s) di.updated).isSome then
    .ok ⟨di.added, replaceByKey key s di.updated, di.deleted⟩
  else if parent.isSome then
    .ok ⟨di.added, s :: di.updated, di.deleted⟩
  else .error .notFound

/-- Modelled from the spec: Delete requires the key to be visible, writes a
tombstone and drops any local added or updated entry for the key
(spec section 4.4). -/
def diffIndexDelete (key : Staker → κ) (di : DiffIndex κ) (k : κ)
    (parent : Option Staker) : Except StoreErr (DiffIndex κ) :=
  if k ∈ di.deleted then .error .notFound
  else if (lookupIndex key k di.added).isSome
      || (lookupIndex key k di.updated).isSome
      || parent.isSome then
    .ok ⟨removeKey key k di.added, removeKey key k di.updated, k :: di.deleted⟩
  else .error .notFound

/-- Modelled from the spec: Apply replays added, updated, and deleted onto
the parent in that order; tombstones replay as unconditional removals
(spec section 4.4). -/
def applyIndex (key : Staker → κ) (di : DiffIndex κ) (l : List Staker) : List Staker :=
  let afterAdds := di.added.foldl (fun acc s => s :: acc) l
  let afterUpdates := di.updated.foldl (fun acc s => replaceByKey key s acc) afterAdds
  di.deleted.foldl (fun acc k => removeKey key k acc) afterUpdates

/-- Well-formedness of one diff overlay relative to the effective parent
content: the three maps are duplicate free and pairwise disjoint, added keys
are absent from the parent and updated keys present in it. -/
structure DiffIndexOK (key : Staker → κ) (di : DiffIndex κ) (cur : List Staker) : Prop where
  addedNodup : NodupKeys key di.added
  updatedNodup : NodupKeys key di.updated
  deletedNodup : di.deleted.Nodup
  addedFresh : ∀ s ∈ di.added, key s ∉ cur.map key
  updatedPresent : ∀ s ∈ di.updated, key s ∈ cur.map key
  addedNotDeleted : ∀ s ∈ di.added, key s ∉ di.deleted
  addedNotUpdated : ∀ s ∈ di.added, key s ∉ di.updated.map key
  updatedNotDeleted : ∀ s ∈ di.updated, key s ∉ di.deleted

instance instDecidableDiffIndexOK (key : Staker → κ) (di : DiffIndex κ) (cur : List Staker) :
    Decidable (DiffIndexOK key di cur) :=
  decidable_of_iff
    (NodupKeys key di.added ∧ NodupKeys key di.updated ∧ di.deleted.Nodup ∧
      (∀ s ∈ di.added, key s ∉ cur.map key) ∧ (∀ s ∈ di.updated, key s ∈ cur.map key) ∧
      (∀ s ∈ di.added, key s ∉ di.deleted) ∧ (∀ s ∈ di.added, key s ∉ di.updated.map key) ∧
      (∀ s ∈ di.updated, key s ∉ di.deleted))
    ⟨fun ⟨a, b, c, d, e, f, g, h⟩ => ⟨a, b, c, d, e, f, g, h⟩,
     fun ⟨a, b, c, d, e, f, g, h⟩ => ⟨a, b, c, d, e, f, g, h⟩⟩

theorem foldl_cons_eq_reverse_append (l acc : List Staker) :
    l.foldl (fun acc s => s :: acc) acc = l.reverse ++ acc := by
  induction l generalizing acc with
  | nil => rfl
  | cons a as ih =>
    rw [List.foldl_cons, ih, List.reverse_cons, List.append_assoc]
    rfl

theorem lookupIndex_foldl_replace (key : Staker → κ) {upd : List Staker}
    (hupd : NodupKeys key upd) (start : List Staker) (k : κ) :
    lookupIndex key k (upd.foldl (fun acc s => replaceByKey key s acc) start) =
      (lookupIndex key k upd).elim (lookupIndex key k start)
        (fun u => if (lookupIndex key k start).isSome then some u else none) := by
  induction upd generalizing start with
  | nil => simp [lookupIndex_nil]
  | cons u rest ih =>
    simp only [NodupKeys, List.map_cons, List.nodup_cons] at hupd
    obtain ⟨hu, hrest⟩ := hupd
    rw [List.foldl_cons, ih hrest, lookupIndex_cons]
    by_cases hk : key u = k
    · subst hk
      have hn : lookupIndex key (key u) rest = none :=
        lookupIndex_eq_none_iff.mpr hu
      rw [hn, if_pos rfl]
      simp only [Option.elim_none, Option.elim_some]
      rw [lookupIndex_replaceByKey, if_pos rfl]
    · rw [if_neg hk, lookupIndex_replaceByKey, if_neg (fun hEq => hk hEq.symm)]

theorem lookupIndex_foldl_remove (key : Staker → κ) (dels : List κ)
    (start : List Staker) (k : κ) :
    lookupIndex key k (dels.foldl (fun acc k' => removeKey key k' acc) start) =
      if k ∈ dels then none else lookupIndex key k start := by
  induction dels generalizing start with
  | nil => simp
  | cons d rest ih =>
    rw [List.foldl_cons, ih, lookupIndex_removeKey]
    by_cases hd : k = d
    · subst hd
      simp
    · by_cases hr : k ∈ rest
      · simp [hr, hd]
      · simp [hr, hd, List.mem_cons]

theorem keys_foldl_replace (key : Staker → κ) (upd start : List Staker) :
    (upd.foldl (fun acc s => replaceByKey key s acc) start).map key = start.map key := by
  induction upd generalizing start with
  | nil => rfl
  | cons u rest ih =>
    rw [List.foldl_cons, ih, keysOf_replaceByKey]

theorem nodupKeys_foldl_remove (key : Staker → κ) (dels : List κ) {start : List Staker}
    (h : NodupKeys key start) :
    NodupKeys key (dels.foldl (fun acc k' => removeKey key k' acc) start) := by
  induction dels generalizing start with
  | nil => exact h
  | cons d rest ih =>
    rw [List.foldl_cons]
    exact ih (nodupKeys_removeKey d h)

theorem nodupKeys_applyIndex {key : Staker → κ} {di : DiffIndex κ} {cur : List Staker}
    (hOK : DiffIndexOK key di cur) (hcur : NodupKeys key cur) :
    NodupKeys key (applyIndex key di cur) := by
  have h1 : NodupKeys key (di.added.foldl (fun acc s => s :: acc) cur) := by
    rw [foldl_cons_eq_reverse_append]
    simp only [NodupKeys, List.map_append, List.map_reverse]
    refine List.Nodup.append (List.nodup_reverse.mpr hOK.addedNodup) hcur ?_
    intro a ha hcur'
    rw [List.mem_reverse, List.mem_map] at ha
    obtain ⟨s, hs, rfl⟩ := ha
    exact hOK.addedFresh s hs hcur'
  have h2 : NodupKeys key
      (di.updated.foldl (fun acc s => replaceByKey key s acc)
        (di.added.foldl (fun acc s => s :: acc) cur)) := by
    rw [NodupKeys, keys_foldl_replace]
    exact h1
  exact nodupKeys_foldl_remove key di.deleted h2

theorem lookupIndex_applyIndex {key : Staker → κ} {di : DiffIndex κ} {cur : List Staker}
    (hOK : DiffIndexOK key di cur) (k : κ) :
    lookupIndex key k (applyIndex key di cur) =
      diffIndexLookup key di k (lookupIndex key k cur) := by
  rw [applyIndex, diffIndexLookup]
  by_cases hdel : k ∈ di.deleted
  · rw [lookupIndex_foldl_remove, if_pos hdel, if_pos hdel]
  · rw [lookupIndex_foldl_remove, if_neg hdel, if_neg hdel,
      lookupIndex_foldl_replace key hOK.updatedNodup]
    have hadds : lookupIndex key k (di.added.foldl (fun acc s => s :: acc) cur) =
        (lookupIndex key k di.added).or (lookupIndex key k cur) := by
      rw [foldl_cons_eq_reverse_append, lookupIndex_append,
        lookupIndex_reverse hOK.addedNodup]
    rcases hupd : lookupIndex key k di.updated with _ | u
    · simp only [Option.elim_none]
      rw [hadds]
      simp [Option.or_assoc]
    · simp only [Option.elim_some]
      obtain ⟨humem, huk⟩ := lookupIndex_eq_some hupd
      have hkcur : k ∈ cur.map key := huk ▸ hOK.updatedPresent u humem
      have : (lookupIndex key k cur).isSome := lookupIndex_isSome_iff.mpr hkcur
      rw [hadds]
      rcases ha : lookupIndex key k di.added with _ | a
      · simp only [Option.or_none, Option.none_or]
        rw [if_pos this]
        simp
      · obtain ⟨hamem, hak⟩ := lookupIndex_eq_some ha
        exact absurd (hak ▸ hOK.addedNotUpdated a hamem)
          (fun hc => hc (huk ▸ List.mem_map_of_mem key humem))

end DiffOps

section StackOps

variable {κ : Type} [DecidableEq κ]

/-- Net content of one index under a stack of overlays (listed top first):
the bottom-up replay of every overlay onto the base index. -/
def collapseIndex (key : Staker → κ)
    (base : List Staker) (dis : List (DiffIndex κ)) : List Staker :=
  dis.foldr (fun di acc => applyIndex key di acc) base

/-- Modelled from the spec: a read walks the diffs top down until a value or
tombstone answers, falling through to the base (spec section 2 data flow). -/
def lookupStack (key : Staker → κ)
    (base : List Staker) : List (DiffIndex κ) → κ → Option Staker
  | [], k => lookupIndex key k base
  | di :: rest, k => diffIndexLookup key di k (lookupStack key base rest k)

/-- Well-formedness of a whole stack of overlays (top first) over a base
index: every overlay is well formed relative to the content below it. -/
def WFStack (key : Staker → κ)
    (base : List Staker) : List (DiffIndex κ) → Prop
  | [] => True
  | di :: rest =>
    WFStack key base rest ∧ DiffIndexOK key di (collapseIndex key base rest)

instance instDecidableWFStack (key : Staker → κ)
    (base : List Staker) : (dis : List (DiffIndex κ)) → Decidable (WFStack key base dis)
  | [] => .isTrue trivial
  | di :: rest =>
    have := instDecidableWFStack key base rest
    inferInstanceAs (Decidable (_ ∧ _))

theorem collapseIndex_nil (key : Staker → κ) (base : List Staker) :
    collapseIndex key base [] = base := rfl

theorem collapseIndex_cons (key : Staker → κ)
    (base : List Staker) (di : DiffIndex κ) (rest : List (DiffIndex κ)) :
    collapseIndex key base (di :: rest) =
      applyIndex key di (collapseIndex key base rest) := rfl

theorem collapseIndex_append_singleton (key : Staker → κ)
    (base : List Staker) (dis : List (DiffIndex κ)) (di : DiffIndex κ) :
    collapseIndex key base (dis ++ [di]) =
      collapseIndex key (applyIndex key di base) dis := by
  rw [collapseIndex, List.foldr_append]
  rfl

theorem wfStack_append_singleton (key : Staker → κ)
    (base : List Staker) (dis : List (DiffIndex κ)) (di : DiffIndex κ) :
    WFStack key base (dis ++ [di]) ↔
      DiffIndexOK key di base ∧ WFStack key (applyIndex key di base) dis := by
  induction dis with
  | nil =>
    simp only [List.nil_append, WFStack, collapseIndex_nil, true_and, and_true]
  | cons x xs ih =>
    rw [List.cons_append]
    show (WFStack key base (xs ++ [di]) ∧
        DiffIndexOK key x (collapseIndex key base (xs ++ [di]))) ↔
      DiffIndexOK key di base ∧
        (WFStack key (applyIndex key di base) xs ∧
          DiffIndexOK key x (collapseIndex key (applyIndex key di base) xs))
    rw [ih, collapseIndex_append_singleton]
    tauto

theorem nodupKeys_collapseIndex {key : Staker → κ}
    {base : List Staker} {dis : List (DiffIndex κ)}
    (hbase : NodupKeys key base) (hwf : WFStack key base dis) :
    NodupKeys key (collapseIndex key base dis) := by
  induction dis with
  | nil => exact hbase
  | cons di rest ih =>
    rw [collapseIndex_cons]
    exact nodupKeys_applyIndex hwf.2 (ih hwf.1)

theorem lookupStack_eq_lookup_collapse {key : Staker → κ}
    {base : List Staker} {dis : List (DiffIndex κ)}
    (hbase : NodupKeys key base) (hwf : WFStack key base dis) (k : κ) :
    lookupStack key base dis k = lookupIndex key k (collapseIndex key base dis) := by
  induction dis with
  | nil => rfl
  | cons di rest ih =>
    rw [lookupStack, ih hwf.1, collapseIndex_cons,
      lookupIndex_applyIndex hwf.2]

/-- Shadow test of the merging iterator: a parent record is suppressed when
its key is tombstoned or replaced in the overlay (spec section 4.4). -/
def diffIndexShadows (key : Staker → κ) (di : DiffIndex κ) (k : κ) : Bool :=
  decide (k ∈ di.deleted) || (lookupIndex key k di.updated).isSome

/-- Modelled from the spec: the ordered iterator of one index through a diff
chain; each layer filters the parent stream by its deleted and updated keys
and merges the locally inserted and updated records (spec sections 4.4, 4.5). -/
def chainIndexIter (key : Staker → κ)
    (base : List Staker) : List (DiffIndex κ) → List Staker
  | [] => sortStakers base
  | di :: rest =>
    mergeStakers
      ((chainIndexIter key base rest).filter
        (fun s => ! diffIndexShadows key di (key s)))
      (sortStakers (di.added ++ di.updated))

theorem lookupIndex_filter_shadows (key : Staker → κ) (di : DiffIndex κ)
    (k : κ) (l : List Staker) :
    lookupIndex key k (l.filter (fun s => ! diffIndexShadows key di (key s))) =
      if diffIndexShadows key di k then none else lookupIndex key k l := by
  have h := lookupIndex_filter_key key (fun k' => ! diffIndexShadows key di k') k l
  rcases hs : diffIndexShadows key di k with _ | _
  · rw [if_neg (by simp [hs])]
    rw [hs] at h
    simpa using h
  · rw [if_pos rfl]
    rw [hs] at h
    simpa using h

theorem chainIndexIter_eq_sorted_collapse {key : Staker → κ}
    {base : List Staker} {dis : List (DiffIndex κ)}
    (hbase : NodupKeys key base) (hwf : WFStack key base dis) :
    chainIndexIter key base dis = sortStakers (collapseIndex key base dis) := by
  induction dis with
  | nil => rfl
  | cons di rest ih =>
    obtain ⟨hwrest, hOK⟩ := hwf
    have hC : NodupKeys key (collapseIndex key base rest) :=
      nodupKeys_collapseIndex hbase hwrest
    set C := collapseIndex key base rest with hCdef
    rw [chainIndexIter, ih hwrest, collapseIndex_cons]
    have hsorted1 : ((sortStakers C).filter
        (fun s => ! diffIndexShadows key di (key s))).Pairwise StakerLe :=
      (sortStakers_sorted C).filter _
    have hsorted2 : (sortStakers (di.added ++ di.updated)).Pairwise StakerLe :=
      sortStakers_sorted _
    rw [mergeStakers_eq_sort hsorted1 hsorted2]
    apply sortStakers_eq_of_perm
    -- the filtered parent stream plus the local records is, as a multiset,
    -- the replay of the overlay onto the parent content
    have hfilter : ((sortStakers C).filter
          (fun s => ! diffIndexShadows key di (key s))).Perm
        (C.filter (fun s => ! diffIndexShadows key di (key s))) :=
      (sortStakers_perm C).filter _
    have hlocal : (sortStakers (di.added ++ di.updated)).Perm
        (di.added ++ di.updated) := sortStakers_perm _
    refine ((hfilter.append hlocal).trans ?_)
    -- now a permutation between plain lists, via pointwise lookups
    have hnodupL : NodupKeys key
        (C.filter (fun s => ! diffIndexShadows key di (key s)) ++
          (di.added ++ di.updated)) := by
      simp only [NodupKeys, List.map_append]
      refine List.Nodup.append ?_ ?_ ?_
      · exact nodupKeys_filter _ hC
      · refine List.Nodup.append hOK.addedNodup hOK.updatedNodup ?_
        intro a ha hb
        rw [List.mem_map] at ha hb
        obtain ⟨s, hs, rfl⟩ := ha
        obtain ⟨t, ht, hkt⟩ := hb
        exact hOK.addedNotUpdated s hs (hkt ▸ List.mem_map_of_mem key ht)
      · intro a ha hb
        rw [List.mem_map] at ha
        obtain ⟨s, hs, rfl⟩ := ha
        rw [List.mem_filter] at hs
        obtain ⟨hsC, hshadow⟩ := hs
        have hshadow' : diffIndexShadows key di (key s) = false := by
          simpa using hshadow
        rw [diffIndexShadows, Bool.or_eq_false_iff] at hshadow'
        rw [List.mem_append] at hb
        rcases hb with hb | hb
        · rw [List.mem_map] at hb
          obtain ⟨t, ht, hkt⟩ := hb
          exact hOK.addedFresh t ht (hkt ▸ List.mem_map_of_mem key hsC)
        · rw [List.mem_map] at hb
          obtain ⟨t, ht, hkt⟩ := hb
          have hsome : (lookupIndex key (key s) di.updated).isSome := by
            rw [lookupIndex_isSome_iff]
            exact hkt ▸ List.mem_map_of_mem key ht
          rw [hshadow'.2] at hsome
          exact absurd hsome (by simp)
    have hnodupR : NodupKeys key (applyIndex key di C) :=
      nodupKeys_applyIndex hOK hC
    apply perm_of_lookupIndex_eq hnodupL hnodupR
    intro k
    rw [lookupIndex_applyIndex hOK, lookupIndex_append, lookupIndex_filter_shadows,
      lookupIndex_append, diffIndexLookup]
    by_cases hdel : k ∈ di.deleted
    · rw [if_pos hdel, if_pos (by simp [diffIndexShadows, hdel])]
      have hnotadd : lookupIndex key k di.added = none := by
        rw [lookupIndex_eq_none_iff]
        intro hk
        rw [List.mem_map] at hk
        obtain ⟨s, hs, rfl⟩ := hk
        exact hOK.addedNotDeleted s hs hdel
      have hnotupd : lookupIndex key k di.updated = none := by
        rw [lookupIndex_eq_none_iff]
        intro hk
        rw [List.mem_map] at hk
        obtain ⟨s, hs, rfl⟩ := hk
        exact hOK.updatedNotDeleted s hs hdel
      rw [hnotadd, hnotupd]
      rfl
    · rw [if_neg hdel]
      rcases hupd : lookupIndex key k di.updated with _ | u
      · have hshadowF : diffIndexShadows key di k = false := by
          simp [diffIndexShadows, hdel, hupd]
        rw [hshadowF, if_neg (by simp)]
        rcases hadd : lookupIndex key k di.added with _ | a
        · simp
        · obtain ⟨hamem, hak⟩ := lookupIndex_eq_some hadd
          have : lookupIndex key k C = none := by
            rw [lookupIndex_eq_none_iff]
            exact hak ▸ hOK.addedFresh a hamem
          rw [this]
          simp
      · have hshadowT : diffIndexShadows key di k = true := by
          simp [diffIndexShadows, hupd]
        rw [hshadowT, if_pos rfl]
        rcases hadd : lookupIndex key k di.added with _ | a
        · simp
        · obtain ⟨hamem, hak⟩ := lookupIndex_eq_some hadd
          obtain ⟨humem, huk⟩ := lookupIndex_eq_some hupd
          exact absurd (huk ▸ List.mem_map_of_mem key humem)
            (hak ▸ hOK.addedNotUpdated a hamem)

end StackOps

section ModelOps

variable {κ : Type} [DecidableEq κ]

/-- Modelled from the spec: insert into one index, failing with
DuplicateStaker when the identity is already present (spec section 4.3). -/
def putIndex (key : Staker → κ) (l : List Staker) (s : Staker) :
    Except StoreErr (List Staker) :=
  if (lookupIndex key (key s) l).isSome then .error .duplicateStaker
  else .ok (s :: l)

/-- Modelled from the spec: replace an existing record of one index, failing
with NotFound when the identity is missing (spec section 4.3). -/
def updateIndex (key : Staker → κ) (l : List Staker) (s : Staker) :
    Except StoreErr (List Staker) :=
  if (lookupIndex key (key s) l).isSome then .ok (replaceByKey key s l)
  else .error .notFound

/-- Modelled from the spec: remove a record of one index by identity,
failing with NotFound when missing (spec section 4.3). -/
def deleteIndex (key : Staker → κ) (l : List Staker) (k : κ) :
    Except StoreErr (List Staker) :=
  if (lookupIndex key k l).isSome then .ok (removeKey key k l)
  else .error .notFound

end ModelOps

/-- Modelled from the spec: the process-local reference model exposing the
same staker operations as the production store, with no diffs, commits or
persistence (spec section 4.2). -/
structure StakersStorageModel where
  currentValidators : List Staker
  currentDelegators : List Staker
  pendingValidators : List Staker
  pendingDelegators : List Staker
deriving DecidableEq, Repr

/-- Modelled from the spec: a fresh reference model is empty. -/
def newStakersStorageModel : StakersStorageModel := ⟨[], [], [], []⟩

def StakersStorageModel.putCurrentValidator (m : StakersStorageModel) (s : Staker) :
    Except StoreErr StakersStorageModel :=
  match putIndex vKey m.currentValidators s with
  | .error e => .error e
  | .ok l => .ok { m with currentValidators := l }

def StakersStorageModel.putCurrentDelegator (m : StakersStorageModel) (s : Staker) :
    Except StoreErr StakersStorageModel :=
  match putIndex dKey m.currentDelegators s with
  | .error e => .error e
  | .ok l => .ok { m with currentDelegators := l }

def StakersStorageModel.putPendingValidator (m : StakersStorageModel) (s : Staker) :
    Except StoreErr StakersStorageModel :=
  match putIndex vKey m.pendingValidators s with
  | .error e => .error e
  | .ok l => .ok { m with pendingValidators := l }

def StakersStorageModel.putPendingDelegator (m : StakersStorageModel) (s : Staker) :
    Except StoreErr StakersStorageModel :=
  match putIndex dKey m.pendingDelegators s with
  | .error e => .error e
  | .ok l => .ok { m with pendingDelegators := l }

def StakersStorageModel.updateCurrentValidator (m : StakersStorageModel) (s : Staker) :
    Except StoreErr StakersStorageModel :=
  match updateIndex vKey m.currentValidators s with
  | .error e => .error e
  | .ok l => .ok { m with currentValidators := l }

def StakersStorageModel.updateCurrentDelegator (m : StakersStorageModel) (s : Staker) :
    Except StoreErr StakersStorageModel :=
  match updateIndex dKey m.currentDelegators s with
  | .error e => .error e
  | .ok l => .ok { m with currentDelegators := l }

def StakersStorageModel.deleteCurrentValidator (m : StakersStorageModel) (s : Staker) :
    Except StoreErr StakersStorageModel :=
  match deleteIndex vKey m.currentValidators (vKey s) with
  | .error e => .error e
  | .ok l => .ok { m with currentValidators := l }

def StakersStorageModel.deleteCurrentDelegator (m : StakersStorageModel) (s : Staker) :
    Except StoreErr StakersStorageModel :=
  match deleteIndex dKey m.currentDelegators (dKey s) with
  | .error e => .error e
  | .ok l => .ok { m with currentDelegators := l }

/-- Modelled from the spec: the model iterator enumerates the union of the
current validators and current delegators under the store total order
(spec section 4.2). -/
def StakersStorageModel.getCurrentStakerIterator (m : StakersStorageModel) : List Staker :=
  sortStakers (m.currentValidators ++ m.currentDelegators)

/-- Modelled from the spec: the model iterator over pending stakers. -/
def StakersStorageModel.getPendingStakerIterator (m : StakersStorageModel) : List Staker :=
  sortStakers (m.pendingValidators ++ m.pendingDelegators)

/-- Modelled from the spec: the durable base layer, with its live in-memory
content and the content last committed to the key-value database, plus the
LastAccepted housekeeping value in both (spec section 4.3). The write batch
is abstracted as the difference between mem and disk. -/
structure BaseState where
  mem : StakersStorageModel
  lastAccepted : Nat
  diskMem : StakersStorageModel
  diskLastAccepted : Nat
deriving DecidableEq, Repr

/-- Modelled from the spec: Commit atomically flushes all pending writes to
the underlying key-value store (spec section 4.3). -/
def BaseState.commit (b : BaseState) : BaseState :=
  { b with diskMem := b.mem, diskLastAccepted := b.lastAccepted }

/-- Modelled from the spec: reopening a state from the key-value database
loads exactly the committed content (spec section 4.3). -/
def buildChainStateFromDisk (b : BaseState) : BaseState :=
  { mem := b.diskMem, lastAccepted := b.diskLastAccepted,
    diskMem := b.diskMem, diskLastAccepted := b.diskLastAccepted }

/-- A base state built over a fresh in-memory database: empty indexes and
the genesis block identifier (modelled as 0) as LastAccepted. -/
def emptyBaseState : BaseState :=
  { mem := newStakersStorageModel, lastAccepted := 0,
    diskMem := newStakersStorageModel, diskLastAccepted := 0 }

/-- The system under test of the harness: a base state plus a stack of
diffs (stakers_model_storage_test.go lines 70-76). The source keeps the
stack as sortedDiffIDs bottom first plus a map from identifier to diff;
here the same stack is one association list stored top first. -/
structure SysUnderTest where
  diffBlkIDSeed : Nat
  baseState : BaseState
  diffs : List (Nat × Diff)
deriving DecidableEq, Repr

/-- The stack of current validator overlays, top first. -/
def curValsStack (sys : SysUnderTest) : List (DiffIndex (Nat × Nat)) :=
  sys.diffs.map (fun p => p.2.currentValidatorsDiff)

/-- The stack of current delegator overlays, top first. -/
def curDelsStack (sys : SysUnderTest) : List (DiffIndex (Nat × Nat × Nat)) :=
  sys.diffs.map (fun p => p.2.currentDelegatorsDiff)

/-- The stack of pending validator overlays, top first. -/
def pendValsStack (sys : SysUnderTest) : List (DiffIndex (Nat × Nat)) :=
  sys.diffs.map (fun p => p.2.pendingValidatorsDiff)

/-- The stack of pending delegator overlays, top first. -/
def pendDelsStack (sys : SysUnderTest) : List (DiffIndex (Nat × Nat × Nat)) :=
  sys.diffs.map (fun p => p.2.pendingDelegatorsDiff)

/-- addDiffOnTop allocates a fresh diff whose parent is the current top
(stakers_model_storage_test.go lines 95-109); new block identifiers come
from the incremented seed. -/
def addDiffOnTop (sys : SysUnderTest) : SysUnderTest :=
  let newTopBlkID := sys.diffBlkIDSeed + 1
  let topBlkID :=
    match sys.diffs with
    | [] => sys.baseState.lastAccepted
    | (i, _) :: _ => i
  { sys with
      diffBlkIDSeed := newTopBlkID,
      diffs := (newTopBlkID, newDiff topBlkID) :: sys.diffs }

/-- Modelled from the spec: Apply replays a whole diff, index by index, onto
a parent content (spec section 4.4). -/
def applyDiffToModel (d : Diff) (m : StakersStorageModel) : StakersStorageModel :=
  { currentValidators := applyIndex vKey d.currentValidatorsDiff m.currentValidators,
    currentDelegators := applyIndex dKey d.currentDelegatorsDiff m.currentDelegators,
    pendingValidators := applyIndex vKey d.pendingValidatorsDiff m.pendingValidators,
    pendingDelegators := applyIndex dKey d.pendingDelegatorsDiff m.pendingDelegators }

/-- flushBottomDiff applies the bottom diff if available, sets LastAccepted
to its block identifier and removes it from the stack and the map
(stakers_model_storage_test.go lines 124-141). -/
def flushBottomDiff (sys : SysUnderTest) : SysUnderTest × Bool :=
  match sys.diffs.getLast? with
  | none => (sys, false)
  | some (bottomDiffID, diffToApply) =>
    ({ sys with
        baseState := { sys.baseState with
          mem := applyDiffToModel diffToApply sys.baseState.mem,
          lastAccepted := bottomDiffID },
        diffs := sys.diffs.dropLast }, true)

/-- The commit command commits the base state
(stakers_model_storage_test.go lines 1406-1413). -/
def commitSys (sys : SysUnderTest) : SysUnderTest :=
  { sys with baseState := sys.baseState.commit }

/-- The flush loop of the rebuild command: flush the bottom diff and commit
after every successful flush, until the stack is empty
(stakers_model_storage_test.go lines 1446-1451); the fuel argument bounds
the iterations and is instantiated with the stack depth. -/
def flushAllLoop : Nat → SysUnderTest → SysUnderTest
  | 0, sys => sys
  | n + 1, sys =>
    let p := flushBottomDiff sys
    if p.2 then flushAllLoop n (commitSys p.1) else p.1

/-- The rebuild command: flush everything with commits, commit once more,
reopen the base state from the database and clear the diff stack
(stakers_model_storage_test.go lines 1442-1467). -/
def rebuildStateRun (sys : SysUnderTest) : SysUnderTest :=
  let sys1 := flushAllLoop sys.diffs.length sys
  let sys2 := commitSys sys1
  { sys2 with baseState := buildChainStateFromDisk sys2.baseState, diffs := [] }

/-- Ordered chain lookup of a current validator through the whole stack. -/
def chainGetCurrentValidator (sys : SysUnderTest) (subnetID nodeID : Nat) : Option Staker :=
  lookupStack vKey sys.baseState.mem.currentValidators
    (curValsStack sys) (subnetID, nodeID)

/-- The current staker iterator of the top chain state: merge of the
validator and delegator streams through the diff chain. -/
def getCurrentStakerIter (sys : SysUnderTest) : List Staker :=
  mergeStakers
    (chainIndexIter vKey sys.baseState.mem.currentValidators (curValsStack sys))
    (chainIndexIter dKey sys.baseState.mem.currentDelegators (curDelsStack sys))

/-- The pending staker iterator of the top chain state. -/
def getPendingStakerIter (sys : SysUnderTest) : List Staker :=
  mergeStakers
    (chainIndexIter vKey sys.baseState.mem.pendingValidators (pendValsStack sys))
    (chainIndexIter dKey sys.baseState.mem.pendingDelegators (pendDelsStack sys))

/-- PutCurrentValidator on the top chain state: on the base when the stack
is empty, otherwise on the top diff with the rest of the chain as parent. -/
def sysPutCurrentValidator (sys : SysUnderTest) (s : Staker) :
    Except StoreErr SysUnderTest :=
  match sys.diffs with
  | [] =>
    match putIndex vKey sys.baseState.mem.currentValidators s with
    | .error e => .error e
    | .ok l =>
      .ok { sys with baseState := { sys.baseState with
              mem := { sys.baseState.mem with currentValidators := l } } }
  | (i, d) :: rest =>
    match diffIndexPut vKey d.currentValidatorsDiff s
        (lookupStack vKey sys.baseState.mem.currentValidators
          (rest.map (fun p => p.2.currentValidatorsDiff)) (vKey s)) with
    | .error e => .error e
    | .ok di =>
      .ok { sys with diffs := (i, { d with currentValidatorsDiff := di }) :: rest }

/-- PutCurrentDelegator on the top chain state. -/
def sysPutCurrentDelegator (sys : SysUnderTest) (s : Staker) :
    Except StoreErr SysUnderTest :=
  match sys.diffs with
  | [] =>
    match putIndex dKey sys.baseState.mem.currentDelegators s with
    | .error e => .error e
    | .ok l =>
      .ok { sys with baseState := { sys.baseState with
              mem := { sys.baseState.mem with currentDelegators := l } } }
  | (i, d) :: rest =>
    match diffIndexPut dKey d.currentDelegatorsDiff s
        (lookupStack dKey sys.baseState.mem.currentDelegators
          (rest.map (fun p => p.2.currentDelegatorsDiff)) (dKey s)) with
    | .error e => .error e
    | .ok di =>
      .ok { sys with diffs := (i, { d with currentDelegatorsDiff := di }) :: rest }

/-- UpdateCurrentValidator on the top chain state. -/
def sysUpdateCurrentValidator (sys : SysUnderTest) (s : Staker) :
    Except StoreErr SysUnderTest :=
  match sys.diffs with
  | [] =>
    match updateIndex vKey sys.baseState.mem.currentValidators s with
    | .error e => .error e
    | .ok l =>
      .ok { sys with baseState := { sys.baseState with
              mem := { sys.baseState.mem with currentValidators := l } } }
  | (i, d) :: rest =>
    match diffIndexUpdate vKey d.currentValidatorsDiff s
        (lookupStack vKey sys.baseState.mem.currentValidators
          (rest.map (fun p => p.2.currentValidatorsDiff)) (vKey s)) with
    | .error e => .error e
    | .ok di =>
      .ok { sys with diffs := (i, { d with currentValidatorsDiff := di }) :: rest }

/-- UpdateCurrentDelegator on the top chain state. -/
def sysUpdateCurrentDelegator (sys : SysUnderTest) (s : Staker) :
    Except StoreErr SysUnderTest :=
  match sys.diffs with
  | [] =>
    match updateIndex dKey sys.baseState.mem.currentDelegators s with
    | .error e => .error e
    | .ok l =>
      .ok { sys with baseState := { sys.baseState with
              mem := { sys.baseState.mem with currentDelegators := l } } }
  | (i, d) :: rest =>
    match diffIndexUpdate dKey d.currentDelegatorsDiff s
        (lookupStack dKey sys.baseState.mem.currentDelegators
          (rest.map (fun p => p.2.currentDelegatorsDiff)) (dKey s)) with
    | .error e => .error e
    | .ok di =>
      .ok { sys with diffs := (i, { d with currentDelegatorsDiff := di }) :: rest }

/-- DeleteCurrentValidator on the top chain state. -/
def sysDeleteCurrentValidator (sys : SysUnderTest) (s : Staker) :
    Except StoreErr SysUnderTest :=
  match sys.diffs with
  | [] =>
    match deleteIndex vKey sys.baseState.mem.currentValidators (vKey s) with
    | .error e => .error e
    | .ok l =>
      .ok { sys with baseState := { sys.baseState with
              mem := { sys.baseState.mem with currentValidators := l } } }
  | (i, d) :: rest =>
    match diffIndexDelete vKey d.currentValidatorsDiff (vKey s)
        (lookupStack vKey sys.baseState.mem.currentValidators
          (rest.map (fun p => p.2.currentValidatorsDiff)) (vKey s)) with
    | .error e => .error e
    | .ok di =>
      .ok { sys with diffs := (i, { d with currentValidatorsDiff := di }) :: rest }

/-- DeleteCurrentDelegator on the top chain state. -/
def sysDeleteCurrentDelegator (sys : SysUnderTest) (s : Staker) :
    Except StoreErr SysUnderTest :=
  match sys.diffs with
  | [] =>
    match deleteIndex dKey sys.baseState.mem.currentDelegators (dKey s) with
    | .error e => .error e
    | .ok l =>
      .ok { sys with baseState := { sys.baseState with
              mem := { sys.baseState.mem with currentDelegators := l } } }
  | (i, d) :: rest =>
    match diffIndexDelete dKey d.currentDelegatorsDiff (dKey s)
        (lookupStack dKey sys.baseState.mem.currentDelegators
          (rest.map (fun p => p.2.currentDelegatorsDiff)) (dKey s)) with
    | .error e => .error e
    | .ok di =>
      .ok { sys with diffs := (i, { d with currentDelegatorsDiff := di }) :: rest }

/-- The harness keeps the previous system state whenever an operation whose
returned error it discards fails. -/
def discardErr (sys : SysUnderTest) : Except StoreErr SysUnderTest → SysUnderTest
  | .ok sys' => sys'
  | .error _ => sys

/-- Seeding of one base index from a list of model records, put by put with
discarded errors, as the constructor does. -/
def seedIndex {κ : Type} [DecidableEq κ] (key : Staker → κ)
    (stakers : List Staker) : List Staker :=
  stakers.foldl
    (fun acc s =>
      match putIndex key acc s with
      | .ok l => l
      | .error _ => acc) []

/-- The constructor of the system under test: build a fresh base state, fill
it with the initial content of the model, commit, and wrap it with an empty
diff stack (stakers_model_storage_test.go lines 146-178). The source seeds
current validators, current delegators and pending validators from the
matching model indexes, but the pending delegator loop on line 168 ranges
over model.currentDelegators. -/
def newSystemUnderTest (model : StakersStorageModel) : SysUnderTest :=
  let mem : StakersStorageModel :=
    { currentValidators := seedIndex vKey model.currentValidators,
      currentDelegators := seedIndex dKey model.currentDelegators,
      pendingValidators := seedIndex vKey model.pendingValidators,
      pendingDelegators := seedIndex dKey model.currentDelegators }
  { diffBlkIDSeed := 0,
    baseState := BaseState.commit { emptyBaseState with mem := mem },
    diffs := [] }

/-- checkSystemAndModelContent: the top view content must always match the
model content, element-wise deep equality of the two ordered iterators
(stakers_model_storage_test.go lines 1493-1533). -/
def checkSystemAndModelContent (model : StakersStorageModel) (sys : SysUnderTest) : Bool :=
  decide (model.getCurrentStakerIterator = getCurrentStakerIter sys)

/-- extraWeight used by the increase weight commands
(stakers_model_storage_test.go line 46). -/
def extraWeight : Nat := 100

/-- Modelled from the spec: ShiftStakerAheadInPlace advances the staker to
the given time preserving the staking period, with nextTime moved to the new
end time (spec section 6). -/
def shiftStakerAheadInPlace (s : Staker) (newNextTime : Int) : Staker :=
  { s with startTime := newNextTime,
           endTime := newNextTime + (s.endTime - s.startTime),
           nextTime := newNextTime + (s.endTime - s.startTime) }

/-- Modelled from the spec: UpdateStakingPeriodInPlace sets the end time to
start plus the new period and nextTime to the new end (spec section 6). -/
def updateStakingPeriodInPlace (s : Staker) (period : Int) : Staker :=
  { s with endTime := s.startTime + period, nextTime := s.startTime + period }

/-- Modelled from the spec: IncreaseStakerWeightInPlace replaces the weight
(spec section 6). -/
def increaseStakerWeightInPlace (s : Staker) (w : Nat) : Staker :=
  { s with weight := w }

/-- pickNewStakingPeriod deterministically perturbs a staking period by half
an hour according to its parity (stakers_model_storage_test.go lines
1536-1544; the time unit is abstracted). -/
def pickNewStakingPeriod (p : Int) : Int :=
  if p % 2 = 0 then p - 1800 else p + 1800

/-- The command alphabet generated by the harness
(stakers_model_storage_test.go lines 198-217). The put commands carry the
staker that the generated transaction denotes. -/
inductive HarnessCmd where
  | putCurrentValidator (s : Staker)
  | shiftCurrentValidator
  | updateStakingPeriodCurrentValidator
  | increaseWeightCurrentValidator
  | deleteCurrentValidator
  | putCurrentDelegator (s : Staker)
  | shiftCurrentDelegator
  | updateStakingPeriodCurrentDelegator
  | increaseWeightCurrentDelegator
  | deleteCurrentDelegator
  | addTopDiff
  | applyBottomDiff
  | commitBottomState
  | rebuildState
deriving DecidableEq, Repr

/-- Validity of a generated command: the generators build current validator
records for put validator commands and current delegator records for put
delegator commands. -/
def cmdOK : HarnessCmd → Bool
  | .putCurrentValidator s => isCurrentValidatorPriority s.priority
  | .putCurrentDelegator s => isCurrentDelegatorPriority s.priority
  | _ => true

/-- The common scan of the validator commands: the first staker of the
current iterator with a current validator priority
(stakers_model_storage_test.go lines 321-338). -/
def findFirstValidator (stakers : List Staker) : Option Staker :=
  stakers.find? (fun s => isCurrentValidatorPriority s.priority)

/-- The common scan of the delegator commands: the first staker of the
current iterator with a current delegator priority
(stakers_model_storage_test.go lines 1050-1066). -/
def findFirstDelegator (stakers : List Staker) : Option Staker :=
  stakers.find? (fun s => isCurrentDelegatorPriority s.priority)

/-- Common shape of the validator update commands on the system: find the
first current validator, add a diff on top, query the staker again through
the new top, transform it and update (stakers_model_storage_test.go lines
307-354, 426-475, 549-596). The error paths panic in the source; they are
unreachable from harness states, and are modelled as keeping the state. -/
def runUpdateCurrentValidatorSys (f : Staker → Staker) (sys : SysUnderTest) :
    SysUnderTest :=
  match findFirstValidator (getCurrentStakerIter sys) with
  | none => sys
  | some validator =>
    let sys1 := addDiffOnTop sys
    match chainGetCurrentValidator sys1 validator.subnetID validator.nodeID with
    | none => sys1
    | some v =>
      match sysUpdateCurrentValidator sys1 (f v) with
      | .ok sys2 => sys2
      | .error _ => sys1

/-- Common shape of the validator update commands on the model: find the
first current validator of the model iterator, transform it and update
(stakers_model_storage_test.go lines 366-394, 487-517, 608-636). -/
def runUpdateCurrentValidatorModel (f : Staker → Staker) (m : StakersStorageModel) :
    StakersStorageModel :=
  match findFirstValidator m.getCurrentStakerIterator with
  | none => m
  | some v =>
    match m.updateCurrentValidator (f v) with
    | .ok m' => m'
    | .error _ => m

/-- Common shape of the delegator update commands on the system: find the
first current delegator, add a diff on top, transform the found record and
update through the new top (stakers_model_storage_test.go lines 923-964,
1037-1076, 1147-1186); unlike the validator commands the source does not
query the delegator again. -/
def runUpdateCurrentDelegatorSys (f : Staker → Staker) (sys : SysUnderTest) :
    SysUnderTest :=
  match findFirstDelegator (getCurrentStakerIter sys) with
  | none => sys
  | some delegator =>
    let sys1 := addDiffOnTop sys
    match sysUpdateCurrentDelegator sys1 (f delegator) with
    | .ok sys2 => sys2
    | .error _ => sys1

/-- Common shape of the delegator update commands on the model
(stakers_model_storage_test.go lines 976-1005, 1088-1115, 1198-1225). -/
def runUpdateCurrentDelegatorModel (f : Staker → Staker) (m : StakersStorageModel) :
    StakersStorageModel :=
  match findFirstDelegator m.getCurrentStakerIterator with
  | none => m
  | some d =>
    match m.updateCurrentDelegator (f d) with
    | .ok m' => m'
    | .error _ => m

/-- Run of one harness command on the system under test, translated from
the Run methods of the fourteen commands. AddTx only feeds the transaction
store, which no compared content observes, and is omitted. -/
def runSysCmd : HarnessCmd → SysUnderTest → SysUnderTest
  | .putCurrentValidator s, sys => discardErr sys (sysPutCurrentValidator sys s)
  | .shiftCurrentValidator, sys =>
    runUpdateCurrentValidatorSys (fun v => shiftStakerAheadInPlace v v.nextTime) sys
  | .updateStakingPeriodCurrentValidator, sys =>
    runUpdateCurrentValidatorSys
      (fun v => updateStakingPeriodInPlace v
        (pickNewStakingPeriod (v.endTime - v.startTime))) sys
  | .increaseWeightCurrentValidator, sys =>
    runUpdateCurrentValidatorSys
      (fun v => increaseStakerWeightInPlace v (v.weight + extraWeight)) sys
  | .deleteCurrentValidator, sys =>
    match findFirstValidator (getCurrentStakerIter sys) with
    | none => sys
    | some v => discardErr sys (sysDeleteCurrentValidator sys v)
  | .putCurrentDelegator s, sys =>
    match findFirstValidator (getCurrentStakerIter sys) with
    | none => sys
    | some v =>
      discardErr sys
        (sysPutCurrentDelegator sys { s with subnetID := v.subnetID, nodeID := v.nodeID })
  | .shiftCurrentDelegator, sys =>
    runUpdateCurrentDelegatorSys (fun d => shiftStakerAheadInPlace d d.nextTime) sys
  | .updateStakingPeriodCurrentDelegator, sys =>
    runUpdateCurrentDelegatorSys
      (fun d => updateStakingPeriodInPlace d
        (pickNewStakingPeriod (d.endTime - d.startTime))) sys
  | .increaseWeightCurrentDelegator, sys =>
    runUpdateCurrentDelegatorSys
      (fun d => increaseStakerWeightInPlace d (d.weight + extraWeight)) sys
  | .deleteCurrentDelegator, sys =>
    match findFirstDelegator (getCurrentStakerIter sys) with
    | none => sys
    | some d => discardErr sys (sysDeleteCurrentDelegator sys d)
  | .addTopDiff, sys => addDiffOnTop sys
  | .applyBottomDiff, sys => (flushBottomDiff sys).1
  | .commitBottomState, sys => commitSys sys
  | .rebuildState, sys => rebuildStateRun sys

/-- Run of one harness command on the reference model, translated from the
NextState methods of the fourteen commands; the four persistence and
layering commands leave the model unchanged. -/
def runModelCmd : HarnessCmd → StakersStorageModel → StakersStorageModel
  | .putCurrentValidator s, m =>
    match m.putCurrentValidator s with
    | .ok m' => m'
    | .error _ => m
  | .shiftCurrentValidator, m =>
    runUpdateCurrentValidatorModel (fun v => shiftStakerAheadInPlace v v.nextTime) m
  | .updateStakingPeriodCurrentValidator, m =>
    runUpdateCurrentValidatorModel
      (fun v => updateStakingPeriodInPlace v
        (pickNewStakingPeriod (v.endTime - v.startTime))) m
  | .increaseWeightCurrentValidator, m =>
    runUpdateCurrentValidatorModel
      (fun v => increaseStakerWeightInPlace v (v.weight + extraWeight)) m
  | .deleteCurrentValidator, m =>
    match findFirstValidator m.getCurrentStakerIterator with
    | none => m
    | some v =>
      match m.deleteCurrentValidator v with
      | .ok m' => m'
      | .error _ => m
  | .putCurrentDelegator s, m =>
    match findFirstValidator m.getCurrentStakerIterator with
    | none => m
    | some v =>
      match m.putCurrentDelegator { s with subnetID := v.subnetID, nodeID := v.nodeID } with
      | .ok m' => m'
      | .error _ => m
  | .shiftCurrentDelegator, m =>
    runUpdateCurrentDelegatorModel (fun d => shiftStakerAheadInPlace d d.nextTime) m
  | .updateStakingPeriodCurrentDelegator, m =>
    runUpdateCurrentDelegatorModel
      (fun d => updateStakingPeriodInPlace d
        (pickNewStakingPeriod (d.endTime - d.startTime))) m
  | .increaseWeightCurrentDelegator, m =>
    runUpdateCurrentDelegatorModel
      (fun d => increaseStakerWeightInPlace d (d.weight + extraWeight)) m
  | .deleteCurrentDelegator, m =>
    match findFirstDelegator m.getCurrentStakerIterator with
    | none => m
    | some d =>
      match m.deleteCurrentDelegator d with
      | .ok m' => m'
      | .error _ => m
  | .addTopDiff, m => m
  | .applyBottomDiff, m => m
  | .commitBottomState, m => m
  | .rebuildState, m => m

/-- The harness check after every command of a run: the post condition of
every command is checkSystemAndModelContent. -/
def checkRunFrom (m : StakersStorageModel) (sys : SysUnderTest) :
    List HarnessCmd → Bool
  | [] => true
  | c :: cs =>
    let m' := runModelCmd c m
    let sys' := runSysCmd c sys
    checkSystemAndModelContent m' sys' && checkRunFrom m' sys' cs

/-- Well-formedness of the model carried by the refinement invariant. -/
def ModelWFCurrent (m : StakersStorageModel) : Prop :=
  NodupKeys vKey m.currentValidators ∧ NodupKeys dKey m.currentDelegators ∧
  (∀ s ∈ m.currentValidators, isCurrentValidatorPriority s.priority = true) ∧
  (∀ s ∈ m.currentDelegators, isCurrentDelegatorPriority s.priority = true)

/-- Well-formedness of the current indexes of the system under test. -/
def SysWFCurrent (sys : SysUnderTest) : Prop :=
  NodupKeys vKey sys.baseState.mem.currentValidators ∧
  NodupKeys dKey sys.baseState.mem.currentDelegators ∧
  WFStack vKey sys.baseState.mem.currentValidators (curValsStack sys) ∧
  WFStack dKey sys.baseState.mem.currentDelegators (curDelsStack sys)

/-- Net current validator content of the whole system. -/
def collapseCurrentValidators (sys : SysUnderTest) : List Staker :=
  collapseIndex vKey sys.baseState.mem.currentValidators (curValsStack sys)

/-- Net current delegator content of the whole system. -/
def collapseCurrentDelegators (sys : SysUnderTest) : List Staker :=
  collapseIndex dKey sys.baseState.mem.currentDelegators (curDelsStack sys)

/-- The refinement invariant between the reference model and the system
under test: both are well formed and the net content of the system matches
the model, index by index, as a multiset. -/
def Inv (m : StakersStorageModel) (sys : SysUnderTest) : Prop :=
  ModelWFCurrent m ∧ SysWFCurrent sys ∧
  (collapseCurrentValidators sys).Perm m.currentValidators ∧
  (collapseCurrentDelegators sys).Perm m.currentDelegators

theorem getCurrentStakerIter_eq_of_inv {m : StakersStorageModel} {sys : SysUnderTest}
    (h : Inv m sys) : getCurrentStakerIter sys = m.getCurrentStakerIterator := by
  obtain ⟨hm, hs, hpv, hpd⟩ := h
  rw [getCurrentStakerIter,
    chainIndexIter_eq_sorted_collapse hs.1 hs.2.2.1,
    chainIndexIter_eq_sorted_collapse hs.2.1 hs.2.2.2,
    mergeStakers_eq_sort (sortStakers_sorted _) (sortStakers_sorted _),
    StakersStorageModel.getCurrentStakerIterator]
  apply sortStakers_eq_of_perm
  exact ((sortStakers_perm _).append (sortStakers_perm _)).trans (hpv.append hpd)

theorem check_true_of_inv {m : StakersStorageModel} {sys : SysUnderTest}
    (h : Inv m sys) : checkSystemAndModelContent m sys = true := by
  rw [checkSystemAndModelContent, getCurrentStakerIter_eq_of_inv h]
  simp

section DiffOpSpecs

variable {κ : Type} [DecidableEq κ]

theorem mem_removeKey {key : Staker → κ} {k : κ} {l : List Staker} {t : Staker} :
    t ∈ removeKey key k l ↔ t ∈ l ∧ ¬ key t = k := by
  simp [removeKey, List.mem_filter]

theorem mem_replaceByKey {key : Staker → κ} {s : Staker} {l : List Staker} {t : Staker}
    (h : t ∈ replaceByKey key s l) : t = s ∨ t ∈ l := by
  rw [replaceByKey, List.mem_map] at h
  obtain ⟨u, hu, hut⟩ := h
  by_cases hk : key u = key s
  · rw [if_pos hk] at hut
    exact Or.inl hut.symm
  · rw [if_neg hk] at hut
    exact Or.inr (hut ▸ hu)

theorem diffIndexLookup_empty (key : Staker → κ) (k : κ) (p : Option Staker) :
    diffIndexLookup key emptyDiffIndex k p = p := by
  simp [diffIndexLookup, emptyDiffIndex, lookupIndex_nil]

theorem applyIndex_empty (key : Staker → κ) (l : List Staker) :
    applyIndex key emptyDiffIndex l = l := rfl

theorem diffIndexOK_empty (key : Staker → κ) (cur : List Staker) :
    DiffIndexOK key emptyDiffIndex cur := by
  refine ⟨?_, ?_, ?_, ?_, ?_, ?_, ?_, ?_⟩ <;> simp [emptyDiffIndex, NodupKeys]

theorem diffIndexPut_dup {key : Staker → κ} {di : DiffIndex κ} {s : Staker}
    {parent : Option Staker}
    (h : (diffIndexLookup key di (key s) parent).isSome) :
    diffIndexPut key di s parent = .error .duplicateStaker := by
  rw [diffIndexLookup] at h
  by_cases hdel : key s ∈ di.deleted
  · rw [if_pos hdel] at h
    simp at h
  · rw [if_neg hdel] at h
    rw [diffIndexPut, if_neg hdel, if_pos ?_]
    rcases hu : lookupIndex key (key s) di.updated with _ | u <;>
      rcases ha : lookupIndex key (key s) di.added with _ | a <;>
        rcases hp : parent with _ | p <;>
          simp_all [Option.or]

theorem diffIndexDelete_notFound {key : Staker → κ} {di : DiffIndex κ} {k : κ}
    {parent : Option Staker}
    (h : diffIndexLookup key di k parent = none) :
    diffIndexDelete key di k parent = .error .notFound := by
  rw [diffIndexLookup] at h
  by_cases hdel : k ∈ di.deleted
  · rw [diffIndexDelete, if_pos hdel]
  · rw [if_neg hdel] at h
    rw [diffIndexDelete, if_neg hdel, if_neg ?_]
    rcases hu : lookupIndex key k di.updated with _ | u <;>
      rcases ha : lookupIndex key k di.added with _ | a <;>
        rcases hp : parent with _ | p <;>
          simp_all [Option.or]

theorem diffIndexUpdate_empty_spec {key : Staker → κ} {s : Staker} {C : List Staker}
    (hsome : (lookupIndex key (key s) C).isSome) :
    diffIndexUpdate key emptyDiffIndex s (lookupIndex key (key s) C) =
        .ok ⟨[], [s], []⟩ ∧
      DiffIndexOK key (⟨[], [s], []⟩ : DiffIndex κ) C ∧
      ∀ k, lookupIndex key k (applyIndex key (⟨[], [s], []⟩ : DiffIndex κ) C) =
        if k = key s then some s else lookupIndex key k C := by
  refine ⟨?_, ?_, ?_⟩
  · rw [diffIndexUpdate]
    simp only [emptyDiffIndex, List.not_mem_nil, if_false, lookupIndex_nil,
      Option.isSome_none, Bool.false_eq_true, if_neg, ite_false]
    rw [if_pos hsome]
  · refine ⟨?_, ?_, ?_, ?_, ?_, ?_, ?_, ?_⟩ <;>
      simp_all [NodupKeys, lookupIndex_isSome_iff]
  · intro k
    have hOK : DiffIndexOK key (⟨[], [s], []⟩ : DiffIndex κ) C := by
      refine ⟨?_, ?_, ?_, ?_, ?_, ?_, ?_, ?_⟩ <;>
        simp_all [NodupKeys, lookupIndex_isSome_iff]
    rw [lookupIndex_applyIndex hOK, diffIndexLookup]
    simp only [List.not_mem_nil, if_false, lookupIndex_nil, ite_false]
    rw [lookupIndex_cons]
    by_cases hk : k = key s
    · subst hk
      rw [if_pos rfl, if_pos rfl]
      rfl
    · rw [if_neg hk, if_neg (fun hEq => hk hEq.symm)]
      rfl

end DiffOpSpecs

section DiffOpSpecs2

variable {κ : Type} [DecidableEq κ]

theorem diffIndexPut_collapse {key : Staker → κ} {di : DiffIndex κ} {C : List Staker}
    {s : Staker} (hOK : DiffIndexOK key di C) (hC : NodupKeys key C)
    (hnone : diffIndexLookup key di (key s) (lookupIndex key (key s) C) = none) :
    ∃ di', diffIndexPut key di s (lookupIndex key (key s) C) = .ok di' ∧
      DiffIndexOK key di' C ∧
      ∀ k, lookupIndex key k (applyIndex key di' C) =
        if k = key s then some s
        else lookupIndex key k (applyIndex key di C) := by
  by_cases hdel : key s ∈ di.deleted
  · -- the key is tombstoned in this overlay: the put revives it
    have hAddNe : ∀ t ∈ di.added, key t ≠ key s := fun t ht hEq =>
      hOK.addedNotDeleted t ht (hEq ▸ hdel)
    have hUpdNe : ∀ t ∈ di.updated, key t ≠ key s := fun t ht hEq =>
      hOK.updatedNotDeleted t ht (hEq ▸ hdel)
    have hUpdNone : lookupIndex key (key s) di.updated = none :=
      lookupIndex_eq_none_iff.mpr (by
        intro hmem
        rw [List.mem_map] at hmem
        obtain ⟨t, ht, hkt⟩ := hmem
        exact hUpdNe t ht hkt)
    by_cases hp : (lookupIndex key (key s) C).isSome
    · refine ⟨⟨di.added, s :: di.updated, di.deleted.erase (key s)⟩, ?_, ?_, ?_⟩
      · rw [diffIndexPut, if_pos hdel, if_pos hp]
      · refine ⟨hOK.addedNodup, ?_, hOK.deletedNodup.erase _, hOK.addedFresh, ?_, ?_, ?_, ?_⟩
        · simp only [NodupKeys, List.map_cons, List.nodup_cons]
          refine ⟨?_, hOK.updatedNodup⟩
          intro hmem
          rw [List.mem_map] at hmem
          obtain ⟨t, ht, hkt⟩ := hmem
          exact hUpdNe t ht hkt
        · intro t ht
          rcases List.mem_cons.mp ht with ht | ht
          · subst ht
            exact lookupIndex_isSome_iff.mp hp
          · exact hOK.updatedPresent t ht
        · intro t ht hmem
          exact hOK.addedNotDeleted t ht (List.mem_of_mem_erase hmem)
        · intro t ht hmem
          rw [List.map_cons, List.mem_cons] at hmem
          rcases hmem with hmem | hmem
          · exact hAddNe t ht hmem
          · exact hOK.addedNotUpdated t ht hmem
        · intro t ht
          rcases List.mem_cons.mp ht with ht | ht
          · subst ht
            exact hOK.deletedNodup.not_mem_erase
          · exact fun hmem => hOK.updatedNotDeleted t ht (List.mem_of_mem_erase hmem)
      · intro k
        have hOK' : DiffIndexOK key (⟨di.added, s :: di.updated,
            di.deleted.erase (key s)⟩ : DiffIndex κ) C := by
          refine ⟨hOK.addedNodup, ?_, hOK.deletedNodup.erase _, hOK.addedFresh, ?_, ?_, ?_, ?_⟩
          · simp only [NodupKeys, List.map_cons, List.nodup_cons]
            refine ⟨?_, hOK.updatedNodup⟩
            intro hmem
            rw [List.mem_map] at hmem
            obtain ⟨t, ht, hkt⟩ := hmem
            exact hUpdNe t ht hkt
          · intro t ht
            rcases List.mem_cons.mp ht with ht | ht
            · subst ht
              exact lookupIndex_isSome_iff.mp hp
            · exact hOK.updatedPresent t ht
          · intro t ht hmem
            exact hOK.addedNotDeleted t ht (List.mem_of_mem_erase hmem)
          · intro t ht hmem
            rw [List.map_cons, List.mem_cons] at hmem
            rcases hmem with hmem | hmem
            · exact hAddNe t ht hmem
            · exact hOK.addedNotUpdated t ht hmem
          · intro t ht
            rcases List.mem_cons.mp ht with ht | ht
            · subst ht
              exact hOK.deletedNodup.not_mem_erase
            · exact fun hmem => hOK.updatedNotDeleted t ht (List.mem_of_mem_erase hmem)
        rw [lookupIndex_applyIndex hOK', lookupIndex_applyIndex hOK,
          diffIndexLookup, diffIndexLookup]
        by_cases hk : k = key s
        · subst hk
          rw [if_neg (fun hmem => hOK.deletedNodup.not_mem_erase hmem),
            if_pos rfl, lookupIndex_cons, if_pos rfl]
          rfl
        · rw [if_neg hk]
          have herase : k ∈ di.deleted.erase (key s) ↔ k ∈ di.deleted :=
            List.mem_erase_of_ne hk
          by_cases hkdel : k ∈ di.deleted
          · rw [if_pos (herase.mpr hkdel), if_pos hkdel]
          · rw [if_neg (fun hmem => hkdel (herase.mp hmem)), if_neg hkdel,
              lookupIndex_cons, if_neg (fun hEq => hk hEq.symm)]
    · -- tombstoned and absent from the parent: revived into added
      refine ⟨⟨s :: di.added, di.updated, di.deleted.erase (key s)⟩, ?_, ?_, ?_⟩
      · rw [diffIndexPut, if_pos hdel, if_neg (by simpa using hp)]
      · refine ⟨?_, hOK.updatedNodup, hOK.deletedNodup.erase _, ?_, hOK.updatedPresent, ?_, ?_, ?_⟩
        · simp only [NodupKeys, List.map_cons, List.nodup_cons]
          refine ⟨?_, hOK.addedNodup⟩
          intro hmem
          rw [List.mem_map] at hmem
          obtain ⟨t, ht, hkt⟩ := hmem
          exact hAddNe t ht hkt
        · intro t ht
          rcases List.mem_cons.mp ht with ht | ht
          · subst ht
            rw [← lookupIndex_eq_none_iff]
            simpa using hp
          · exact hOK.addedFresh t ht
        · intro t ht
          rcases List.mem_cons.mp ht with ht | ht
          · subst ht
            exact hOK.deletedNodup.not_mem_erase
          · exact fun hmem => hOK.addedNotDeleted t ht (List.mem_of_mem_erase hmem)
        · intro t ht
          rcases List.mem_cons.mp ht with ht | ht
          · subst ht
            intro hmem
            rw [List.mem_map] at hmem
            obtain ⟨u, hu, hku⟩ := hmem
            exact hUpdNe u hu hku
          · exact hOK.addedNotUpdated t ht
        · intro t ht hmem
          exact hOK.updatedNotDeleted t ht (List.mem_of_mem_erase hmem)
      · intro k
        have hOK' : DiffIndexOK key (⟨s :: di.added, di.updated,
            di.deleted.erase (key s)⟩ : DiffIndex κ) C := by
          refine ⟨?_, hOK.updatedNodup, hOK.deletedNodup.erase _, ?_, hOK.updatedPresent, ?_, ?_, ?_⟩
          · simp only [NodupKeys, List.map_cons, List.nodup_cons]
            refine ⟨?_, hOK.addedNodup⟩
            intro hmem
            rw [List.mem_map] at hmem
            obtain ⟨t, ht, hkt⟩ := hmem
            exact hAddNe t ht hkt
          · intro t ht
            rcases List.mem_cons.mp ht with ht | ht
            · subst ht
              rw [← lookupIndex_eq_none_iff]
              simpa using hp
            · exact hOK.addedFresh t ht
          · intro t ht
            rcases List.mem_cons.mp ht with ht | ht
            · subst ht
              exact hOK.deletedNodup.not_mem_erase
            · exact fun hmem => hOK.addedNotDeleted t ht (List.mem_of_mem_erase hmem)
          · intro t ht
            rcases List.mem_cons.mp ht with ht | ht
            · subst ht
              intro hmem
              rw [List.mem_map] at hmem
              obtain ⟨u, hu, hku⟩ := hmem
              exact hUpdNe u hu hku
            · exact hOK.addedNotUpdated t ht
          · intro t ht hmem
            exact hOK.updatedNotDeleted t ht (List.mem_of_mem_erase hmem)
        rw [lookupIndex_applyIndex hOK', lookupIndex_applyIndex hOK,
          diffIndexLookup, diffIndexLookup]
        by_cases hk : k = key s
        · subst hk
          have hcn : lookupIndex key (key s) C = none := by
            rcases h' : lookupIndex key (key s) C with _ | c
            · rfl
            · rw [h'] at hp
              simp at hp
          rw [if_neg (fun hmem => hOK.deletedNodup.not_mem_erase hmem),
            hUpdNone, lookupIndex_cons, if_pos rfl, hcn]
          simp
        · rw [if_neg hk]
          have herase : k ∈ di.deleted.erase (key s) ↔ k ∈ di.deleted :=
            List.mem_erase_of_ne hk
          by_cases hkdel : k ∈ di.deleted
          · rw [if_pos (herase.mpr hkdel), if_pos hkdel]
          · rw [if_neg (fun hmem => hkdel (herase.mp hmem)), if_neg hkdel,
              lookupIndex_cons, if_neg (fun hEq => hk hEq.symm)]
  · -- the key is not tombstoned: every layer must miss it
    rw [diffIndexLookup, if_neg hdel] at hnone
    have h3 : lookupIndex key (key s) di.updated = none ∧
        lookupIndex key (key s) di.added = none ∧
        lookupIndex key (key s) C = none := by
      rcases hu : lookupIndex key (key s) di.updated with _ | u <;>
        rcases ha : lookupIndex key (key s) di.added with _ | a <;>
          rcases hc : lookupIndex key (key s) C with _ | c <;>
            simp_all [Option.or]
    obtain ⟨hu, ha, hc⟩ := h3
    refine ⟨⟨s :: di.added, di.updated, di.deleted⟩, ?_, ?_, ?_⟩
    · rw [diffIndexPut, if_neg hdel, if_neg (by simp [hu, ha, hc])]
    · refine ⟨?_, hOK.updatedNodup, hOK.deletedNodup, ?_, hOK.updatedPresent, ?_, ?_, ?_⟩
      · simp only [NodupKeys, List.map_cons, List.nodup_cons]
        exact ⟨lookupIndex_eq_none_iff.mp ha, hOK.addedNodup⟩
      · intro t ht
        rcases List.mem_cons.mp ht with ht | ht
        · subst ht
          exact lookupIndex_eq_none_iff.mp hc
        · exact hOK.addedFresh t ht
      · intro t ht
        rcases List.mem_cons.mp ht with ht | ht
        · subst ht
          exact hdel
        · exact hOK.addedNotDeleted t ht
      · intro t ht
        rcases List.mem_cons.mp ht with ht | ht
        · subst ht
          exact lookupIndex_eq_none_iff.mp hu
        · exact hOK.addedNotUpdated t ht
      · exact hOK.updatedNotDeleted
    · intro k
      have hOK' : DiffIndexOK key (⟨s :: di.added, di.updated, di.deleted⟩ : DiffIndex κ) C := by
        refine ⟨?_, hOK.updatedNodup, hOK.deletedNodup, ?_, hOK.updatedPresent, ?_, ?_, ?_⟩
        · simp only [NodupKeys, List.map_cons, List.nodup_cons]
          exact ⟨lookupIndex_eq_none_iff.mp ha, hOK.addedNodup⟩
        · intro t ht
          rcases List.mem_cons.mp ht with ht | ht
          · subst ht
            exact lookupIndex_eq_none_iff.mp hc
          · exact hOK.addedFresh t ht
        · intro t ht
          rcases List.mem_cons.mp ht with ht | ht
          · subst ht
            exact hdel
          · exact hOK.addedNotDeleted t ht
        · intro t ht
          rcases List.mem_cons.mp ht with ht | ht
          · subst ht
            exact lookupIndex_eq_none_iff.mp hu
          · exact hOK.addedNotUpdated t ht
        · exact hOK.updatedNotDeleted
      rw [lookupIndex_applyIndex hOK', lookupIndex_applyIndex hOK,
        diffIndexLookup, diffIndexLookup]
      by_cases hk : k = key s
      · subst hk
        rw [if_neg hdel, if_pos rfl, hu, lookupIndex_cons, if_pos rfl, hc]
        rfl
      · by_cases hkdel : k ∈ di.deleted
        · rw [if_pos hkdel, if_neg hk, if_pos hkdel]
        · rw [if_neg hkdel, if_neg hk, if_neg hkdel,
            lookupIndex_cons, if_neg (fun hEq => hk hEq.symm)]

end DiffOpSpecs2

section DiffOpSpecs3

variable {κ : Type} [DecidableEq κ]

theorem diffIndexDelete_collapse {key : Staker → κ} {di : DiffIndex κ} {C : List Staker}
    {k : κ} (hOK : DiffIndexOK key di C) (hC : NodupKeys key C)
    (hsome : (diffIndexLookup key di k (lookupIndex key k C)).isSome) :
    ∃ di', diffIndexDelete key di k (lookupIndex key k C) = .ok di' ∧
      DiffIndexOK key di' C ∧
      ∀ k', lookupIndex key k' (applyIndex key di' C) =
        if k' = k then none else lookupIndex key k' (applyIndex key di C) := by
  have hdel : k ∉ di.deleted := by
    intro hmem
    rw [diffIndexLookup, if_pos hmem] at hsome
    simp at hsome
  rw [diffIndexLookup, if_neg hdel] at hsome
  have hcond : ((lookupIndex key k di.added).isSome
      || (lookupIndex key k di.updated).isSome
      || (lookupIndex key k C).isSome) = true := by
    rcases hu : lookupIndex key k di.updated with _ | u <;>
      rcases ha : lookupIndex key k di.added with _ | a <;>
        rcases hc : lookupIndex key k C with _ | c <;>
          simp_all [Option.or]
  have hOK' : DiffIndexOK key
      (⟨removeKey key k di.added, removeKey key k di.updated, k :: di.deleted⟩ :
        DiffIndex κ) C := by
    refine ⟨nodupKeys_removeKey _ hOK.addedNodup, nodupKeys_removeKey _ hOK.updatedNodup,
      ?_, ?_, ?_, ?_, ?_, ?_⟩
    · exact List.nodup_cons.mpr ⟨hdel, hOK.deletedNodup⟩
    · intro t ht
      exact hOK.addedFresh t (mem_removeKey.mp ht).1
    · intro t ht
      exact hOK.updatedPresent t (mem_removeKey.mp ht).1
    · intro t ht
      obtain ⟨ht', hne⟩ := mem_removeKey.mp ht
      rw [List.mem_cons]
      rintro (hEq | hmem)
      · exact hne hEq
      · exact hOK.addedNotDeleted t ht' hmem
    · intro t ht hmem
      obtain ⟨ht', hne⟩ := mem_removeKey.mp ht
      rw [List.mem_map] at hmem
      obtain ⟨u, hu, hku⟩ := hmem
      exact hOK.addedNotUpdated t ht'
        (hku ▸ List.mem_map_of_mem key (mem_removeKey.mp hu).1)
    · intro t ht
      obtain ⟨ht', hne⟩ := mem_removeKey.mp ht
      rw [List.mem_cons]
      rintro (hEq | hmem)
      · exact hne hEq
      · exact hOK.updatedNotDeleted t ht' hmem
  refine ⟨⟨removeKey key k di.added, removeKey key k di.updated, k :: di.deleted⟩, ?_, hOK', ?_⟩
  · rw [diffIndexDelete, if_neg hdel, if_pos hcond]
  · intro k'
    rw [lookupIndex_applyIndex hOK', lookupIndex_applyIndex hOK,
      diffIndexLookup, diffIndexLookup]
    by_cases hk : k' = k
    · subst hk
      rw [if_pos (List.mem_cons_self _ _), if_pos rfl]
    · rw [if_neg hk]
      have hmemiff : k' ∈ k :: di.deleted ↔ k' ∈ di.deleted := by
        rw [List.mem_cons]
        constructor
        · rintro (hEq | hmem)
          · exact absurd hEq hk
          · exact hmem
        · exact Or.inr
      by_cases hkdel : k' ∈ di.deleted
      · rw [if_pos (hmemiff.mpr hkdel), if_pos hkdel]
      · rw [if_neg (fun hmem => hkdel (hmemiff.mp hmem)), if_neg hkdel,
          lookupIndex_removeKey, lookupIndex_removeKey, if_neg hk, if_neg hk]

end DiffOpSpecs3

theorem valPri_not_delPri {p : StakerPriority}
    (h : isCurrentValidatorPriority p = true) : isCurrentDelegatorPriority p = false := by
  cases p <;> simp_all [isCurrentValidatorPriority, isCurrentDelegatorPriority]

theorem delPri_not_valPri {p : StakerPriority}
    (h : isCurrentDelegatorPriority p = true) : isCurrentValidatorPriority p = false := by
  cases p <;> simp_all [isCurrentValidatorPriority, isCurrentDelegatorPriority]

theorem addDiffOnTop_baseState (sys : SysUnderTest) :
    (addDiffOnTop sys).baseState = sys.baseState := rfl

theorem curValsStack_addDiffOnTop (sys : SysUnderTest) :
    curValsStack (addDiffOnTop sys) = emptyDiffIndex :: curValsStack sys := by
  simp [addDiffOnTop, curValsStack, newDiff]

theorem curDelsStack_addDiffOnTop (sys : SysUnderTest) :
    curDelsStack (addDiffOnTop sys) = emptyDiffIndex :: curDelsStack sys := by
  simp [addDiffOnTop, curDelsStack, newDiff]

theorem collapseCurrentValidators_addDiffOnTop (sys : SysUnderTest) :
    collapseCurrentValidators (addDiffOnTop sys) = collapseCurrentValidators sys := by
  rw [collapseCurrentValidators, collapseCurrentValidators,
    curValsStack_addDiffOnTop, addDiffOnTop_baseState, collapseIndex_cons, applyIndex_empty]

theorem collapseCurrentDelegators_addDiffOnTop (sys : SysUnderTest) :
    collapseCurrentDelegators (addDiffOnTop sys) = collapseCurrentDelegators sys := by
  rw [collapseCurrentDelegators, collapseCurrentDelegators,
    curDelsStack_addDiffOnTop, addDiffOnTop_baseState, collapseIndex_cons, applyIndex_empty]

theorem sysWF_addDiffOnTop {sys : SysUnderTest} (hs : SysWFCurrent sys) :
    SysWFCurrent (addDiffOnTop sys) := by
  obtain ⟨h1, h2, h3, h4⟩ := hs
  refine ⟨h1, h2, ?_, ?_⟩
  · rw [curValsStack_addDiffOnTop, addDiffOnTop_baseState]
    exact ⟨h3, diffIndexOK_empty _ _⟩
  · rw [curDelsStack_addDiffOnTop, addDiffOnTop_baseState]
    exact ⟨h4, diffIndexOK_empty _ _⟩

theorem inv_addDiffOnTop {m : StakersStorageModel} {sys : SysUnderTest}
    (hInv : Inv m sys) : Inv m (addDiffOnTop sys) := by
  obtain ⟨hm, hs, hpv, hpd⟩ := hInv
  exact ⟨hm, sysWF_addDiffOnTop hs,
    collapseCurrentValidators_addDiffOnTop sys ▸ hpv,
    collapseCurrentDelegators_addDiffOnTop sys ▸ hpd⟩

theorem chainGetCurrentValidator_collapse {sys : SysUnderTest}
    (hs : SysWFCurrent sys) (a b : Nat) :
    chainGetCurrentValidator sys a b =
      lookupIndex vKey (a, b) (collapseCurrentValidators sys) :=
  lookupStack_eq_lookup_collapse hs.1 hs.2.2.1 (a, b)

theorem inv_runPutCurrentValidator {m : StakersStorageModel} {sys : SysUnderTest}
    {s : Staker} (hInv : Inv m sys)
    (hpri : isCurrentValidatorPriority s.priority = true) :
    Inv (runModelCmd (.putCurrentValidator s) m) (runSysCmd (.putCurrentValidator s) sys) := by
  obtain ⟨hm, hs, hpv, hpd⟩ := hInv
  obtain ⟨hmnv, hmnd, hmpv, hmpd⟩ := hm
  obtain ⟨hbnv, hbnd, hwv, hwd⟩ := hs
  have hCn : NodupKeys vKey (collapseCurrentValidators sys) :=
    nodupKeys_collapseIndex hbnv hwv
  have hlookEq : lookupIndex vKey (vKey s) (collapseCurrentValidators sys) =
      lookupIndex vKey (vKey s) m.currentValidators :=
    lookupIndex_eq_of_perm hpv hCn _
  simp only [runModelCmd, runSysCmd, StakersStorageModel.putCurrentValidator, putIndex]
  rcases hml : lookupIndex vKey (vKey s) m.currentValidators with _ | v
  · -- the identity is fresh: both puts succeed
    rw [if_neg (by simp [hml])]
    have hCnone : lookupIndex vKey (vKey s) (collapseCurrentValidators sys) = none :=
      hlookEq.trans hml
    have hInvModel : ModelWFCurrent
        { m with currentValidators := s :: m.currentValidators } := by
      refine ⟨?_, hmnd, ?_, hmpd⟩
      · simp only [NodupKeys, List.map_cons, List.nodup_cons]
        exact ⟨lookupIndex_eq_none_iff.mp hml, hmnv⟩
      · intro t ht
        rcases List.mem_cons.mp ht with ht | ht
        · subst ht
          exact hpri
        · exact hmpv t ht
    rcases hdiffs : sys.diffs with _ | ⟨⟨i, d⟩, rest⟩
    · -- the put lands on the base state
      have hstackv : curValsStack sys = [] := by simp [curValsStack, hdiffs]
      have hCeq : collapseCurrentValidators sys = sys.baseState.mem.currentValidators := by
        rw [collapseCurrentValidators, hstackv, collapseIndex_nil]
      simp only [sysPutCurrentValidator, hdiffs, putIndex]
      rw [if_neg (by rw [← hCeq]; simp [hCnone])]
      simp only [discardErr]
      refine ⟨hInvModel, ⟨?_, hbnd, ?_, ?_⟩, ?_, ?_⟩
      · simp only [NodupKeys, List.map_cons, List.nodup_cons]
        refine ⟨?_, hbnv⟩
        rw [← hCeq]
        exact lookupIndex_eq_none_iff.mp hCnone
      · simp only [curValsStack, hdiffs, List.map_nil]
        trivial
      · simp only [curDelsStack, hdiffs, List.map_nil]
        trivial
      · rw [collapseCurrentValidators]
        simp only [curValsStack, hdiffs, List.map_nil, collapseIndex_nil]
        have : (s :: sys.baseState.mem.currentValidators).Perm
            (s :: m.currentValidators) := by
          refine List.Perm.cons s ?_
          rw [← hCeq]
          exact hpv
        exact this
      · rw [collapseCurrentDelegators]
        simp only [curDelsStack, hdiffs, List.map_nil, collapseIndex_nil]
        rw [collapseCurrentDelegators, curDelsStack, hdiffs] at hpd
        simpa using hpd
    · -- the put lands on the top diff
      have hstackv : curValsStack sys =
          d.currentValidatorsDiff :: rest.map (fun p => p.2.currentValidatorsDiff) := by
        simp [curValsStack, hdiffs]
      have hstackd : curDelsStack sys =
          d.currentDelegatorsDiff :: rest.map (fun p => p.2.currentDelegatorsDiff) := by
        simp [curDelsStack, hdiffs]
      rw [hstackv] at hwv
      obtain ⟨hwrest, hdOK⟩ := hwv
      have hCrest : NodupKeys vKey
          (collapseIndex vKey sys.baseState.mem.currentValidators
            (rest.map (fun p => p.2.currentValidatorsDiff))) :=
        nodupKeys_collapseIndex hbnv hwrest
      have hparent : lookupStack vKey sys.baseState.mem.currentValidators
          (rest.map (fun p => p.2.currentValidatorsDiff)) (vKey s) =
          lookupIndex vKey (vKey s)
            (collapseIndex vKey sys.baseState.mem.currentValidators
              (rest.map (fun p => p.2.currentValidatorsDiff))) :=
        lookupStack_eq_lookup_collapse hbnv hwrest _
      have hCV : collapseCurrentValidators sys =
          applyIndex vKey d.currentValidatorsDiff
            (collapseIndex vKey sys.baseState.mem.currentValidators
              (rest.map (fun p => p.2.currentValidatorsDiff))) := by
        rw [collapseCurrentValidators, hstackv, collapseIndex_cons]
      have hdiffnone : diffIndexLookup vKey d.currentValidatorsDiff (vKey s)
          (lookupIndex vKey (vKey s)
            (collapseIndex vKey sys.baseState.mem.currentValidators
              (rest.map (fun p => p.2.currentValidatorsDiff)))) = none := by
        rw [← lookupIndex_applyIndex hdOK, ← hCV]
        exact hCnone
      obtain ⟨di', hput, hOK', hpoint⟩ :=
        diffIndexPut_collapse hdOK hCrest hdiffnone
      simp only [sysPutCurrentValidator, hdiffs]
      rw [hparent, hput]
      simp only [discardErr]
      refine ⟨hInvModel, ⟨hbnv, hbnd, ?_, ?_⟩, ?_, ?_⟩
      · simp only [curValsStack, List.map_cons]
        exact ⟨hwrest, hOK'⟩
      · simp only [curDelsStack, List.map_cons]
        rw [hstackd] at hwd
        exact hwd
      · rw [collapseCurrentValidators]
        simp only [curValsStack, List.map_cons, collapseIndex_cons]
        refine perm_of_lookupIndex_eq (nodupKeys_applyIndex hOK' hCrest) ?_ ?_
        · simp only [NodupKeys, List.map_cons, List.nodup_cons]
          exact ⟨lookupIndex_eq_none_iff.mp hml, hmnv⟩
        · intro k
          rw [hpoint k, lookupIndex_cons]
          by_cases hk : k = vKey s
          · subst hk
            rw [if_pos rfl, if_pos rfl]
          · rw [if_neg hk, if_neg (fun hEq => hk hEq.symm), ← hCV,
              lookupIndex_eq_of_perm hpv hCn k]
      · rw [collapseCurrentDelegators]
        simp only [curDelsStack, List.map_cons, collapseIndex_cons]
        rw [collapseCurrentDelegators, hstackd, collapseIndex_cons] at hpd
        exact hpd
  · -- the identity is already present: duplicate on both sides
    rw [if_pos (by simp [hml])]
    have hCsome : (lookupIndex vKey (vKey s)
        (collapseCurrentValidators sys)).isSome := by
      rw [hlookEq, hml]
      simp
    have hsys : sysPutCurrentValidator sys s = .error .duplicateStaker := by
      rcases hdiffs : sys.diffs with _ | ⟨⟨i, d⟩, rest⟩
      · have hCeq : collapseCurrentValidators sys = sys.baseState.mem.currentValidators := by
          rw [collapseCurrentValidators]
          simp [curValsStack, hdiffs, collapseIndex_nil]
        simp only [sysPutCurrentValidator, hdiffs, putIndex]
        rw [if_pos (by rw [← hCeq]; exact hCsome)]
      · have hstackv : curValsStack sys =
            d.currentValidatorsDiff :: rest.map (fun p => p.2.currentValidatorsDiff) := by
          simp [curValsStack, hdiffs]
        rw [hstackv] at hwv
        obtain ⟨hwrest, hdOK⟩ := hwv
        have hparent : lookupStack vKey sys.baseState.mem.currentValidators
            (rest.map (fun p => p.2.currentValidatorsDiff)) (vKey s) =
            lookupIndex vKey (vKey s)
              (collapseIndex vKey sys.baseState.mem.currentValidators
                (rest.map (fun p => p.2.currentValidatorsDiff))) :=
          lookupStack_eq_lookup_collapse hbnv hwrest _
        have hCV : collapseCurrentValidators sys =
            applyIndex vKey d.currentValidatorsDiff
              (collapseIndex vKey sys.baseState.mem.currentValidators
                (rest.map (fun p => p.2.currentValidatorsDiff))) := by
          rw [collapseCurrentValidators, hstackv, collapseIndex_cons]
        have hdiffsome : (diffIndexLookup vKey d.currentValidatorsDiff (vKey s)
            (lookupIndex vKey (vKey s)
              (collapseIndex vKey sys.baseState.mem.currentValidators
                (rest.map (fun p => p.2.currentValidatorsDiff))))).isSome := by
          rw [← lookupIndex_applyIndex hdOK, ← hCV]
          exact hCsome
        simp only [sysPutCurrentValidator, hdiffs]
        rw [hparent, diffIndexPut_dup hdiffsome]
    rw [hsys]
    simp only [discardErr]
    exact ⟨⟨hmnv, hmnd, hmpv, hmpd⟩, ⟨hbnv, hbnd, hwv, hwd⟩, hpv, hpd⟩

theorem inv_runPutCurrentDelegator {m : StakersStorageModel} {sys : SysUnderTest}
    {s : Staker} (hInv : Inv m sys)
    (hpri : isCurrentDelegatorPriority s.priority = true) :
    Inv (runModelCmd (.putCurrentDelegator s) m) (runSysCmd (.putCurrentDelegator s) sys) := by
  have hiter := getCurrentStakerIter_eq_of_inv hInv
  obtain ⟨hm, hs, hpv, hpd⟩ := hInv
  obtain ⟨hmnv, hmnd, hmpv, hmpd⟩ := hm
  obtain ⟨hbnv, hbnd, hwv, hwd⟩ := hs
  simp only [runModelCmd, runSysCmd, findFirstValidator, hiter]
  rcases hfind : m.getCurrentStakerIterator.find?
      (fun t => isCurrentValidatorPriority t.priority) with _ | v
  · simp only [hfind]
    exact ⟨⟨hmnv, hmnd, hmpv, hmpd⟩, ⟨hbnv, hbnd, hwv, hwd⟩, hpv, hpd⟩
  · simp only [hfind]
    have hCn : NodupKeys dKey (collapseCurrentDelegators sys) :=
      nodupKeys_collapseIndex hbnd hwd
    have hpris : ({ s with subnetID := v.subnetID, nodeID := v.nodeID } : Staker).priority
        = s.priority := rfl
    have hlookEq : lookupIndex dKey
        (dKey { s with subnetID := v.subnetID, nodeID := v.nodeID })
          (collapseCurrentDelegators sys) =
        lookupIndex dKey (dKey { s with subnetID := v.subnetID, nodeID := v.nodeID })
          m.currentDelegators :=
      lookupIndex_eq_of_perm hpd hCn _
    set s' : Staker := { s with subnetID := v.subnetID, nodeID := v.nodeID } with hs'
    simp only [StakersStorageModel.putCurrentDelegator, putIndex]
    rcases hml : lookupIndex dKey (dKey s') m.currentDelegators with _ | w
    · -- the delegator identity is fresh: both puts succeed
      rw [if_neg (by simp [hml])]
      have hCnone : lookupIndex dKey (dKey s') (collapseCurrentDelegators sys) = none :=
        hlookEq.trans hml
      have hInvModel : ModelWFCurrent
          { m with currentDelegators := s' :: m.currentDelegators } := by
        refine ⟨hmnv, ?_, hmpv, ?_⟩
        · simp only [NodupKeys, List.map_cons, List.nodup_cons]
          exact ⟨lookupIndex_eq_none_iff.mp hml, hmnd⟩
        · intro t ht
          rcases List.mem_cons.mp ht with ht | ht
          · subst ht
            rw [hpris]
            exact hpri
          · exact hmpd t ht
      rcases hdiffs : sys.diffs with _ | ⟨⟨i, d⟩, rest⟩
      · have hCeq : collapseCurrentDelegators sys = sys.baseState.mem.currentDelegators := by
          rw [collapseCurrentDelegators]
          simp [curDelsStack, hdiffs, collapseIndex_nil]
        simp only [sysPutCurrentDelegator, hdiffs, putIndex]
        rw [if_neg (by rw [← hCeq]; simp [hCnone])]
        simp only [discardErr]
        refine ⟨hInvModel, ⟨hbnv, ?_, ?_, ?_⟩, ?_, ?_⟩
        · simp only [NodupKeys, List.map_cons, List.nodup_cons]
          refine ⟨?_, hbnd⟩
          rw [← hCeq]
          exact lookupIndex_eq_none_iff.mp hCnone
        · simp only [curValsStack, hdiffs, List.map_nil]
          trivial
        · simp only [curDelsStack, hdiffs, List.map_nil]
          trivial
        · rw [collapseCurrentValidators]
          simp only [curValsStack, hdiffs, List.map_nil, collapseIndex_nil]
          rw [collapseCurrentValidators, curValsStack, hdiffs] at hpv
          simpa using hpv
        · rw [collapseCurrentDelegators]
          simp only [curDelsStack, hdiffs, List.map_nil, collapseIndex_nil]
          refine List.Perm.cons s' ?_
          rw [← hCeq]
          exact hpd
      · have hstackv : curValsStack sys =
            d.currentValidatorsDiff :: rest.map (fun p => p.2.currentValidatorsDiff) := by
          simp [curValsStack, hdiffs]
        have hstackd : curDelsStack sys =
            d.currentDelegatorsDiff :: rest.map (fun p => p.2.currentDelegatorsDiff) := by
          simp [curDelsStack, hdiffs]
        rw [hstackd] at hwd
        obtain ⟨hwrest, hdOK⟩ := hwd
        have hCrest : NodupKeys dKey
            (collapseIndex dKey sys.baseState.mem.currentDelegators
              (rest.map (fun p => p.2.currentDelegatorsDiff))) :=
          nodupKeys_collapseIndex hbnd hwrest
        have hparent : lookupStack dKey sys.baseState.mem.currentDelegators
            (rest.map (fun p => p.2.currentDelegatorsDiff)) (dKey s') =
            lookupIndex dKey (dKey s')
              (collapseIndex dKey sys.baseState.mem.currentDelegators
                (rest.map (fun p => p.2.currentDelegatorsDiff))) :=
          lookupStack_eq_lookup_collapse hbnd hwrest _
        have hCV : collapseCurrentDelegators sys =
            applyIndex dKey d.currentDelegatorsDiff
              (collapseIndex dKey sys.baseState.mem.currentDelegators
                (rest.map (fun p => p.2.currentDelegatorsDiff))) := by
          rw [collapseCurrentDelegators, hstackd, collapseIndex_cons]
        have hdiffnone : diffIndexLookup dKey d.currentDelegatorsDiff (dKey s')
            (lookupIndex dKey (dKey s')
              (collapseIndex dKey sys.baseState.mem.currentDelegators
                (rest.map (fun p => p.2.currentDelegatorsDiff)))) = none := by
          rw [← lookupIndex_applyIndex hdOK, ← hCV]
          exact hCnone
        obtain ⟨di', hput, hOK', hpoint⟩ :=
          diffIndexPut_collapse hdOK hCrest hdiffnone
        simp only [sysPutCurrentDelegator, hdiffs]
        rw [hparent, hput]
        simp only [discardErr]
        refine ⟨hInvModel, ⟨hbnv, hbnd, ?_, ?_⟩, ?_, ?_⟩
        · simp only [curValsStack, List.map_cons]
          rw [hstackv] at hwv
          exact hwv
        · simp only [curDelsStack, List.map_cons]
          exact ⟨hwrest, hOK'⟩
        · rw [collapseCurrentValidators]
          simp only [curValsStack, List.map_cons, collapseIndex_cons]
          rw [collapseCurrentValidators, hstackv, collapseIndex_cons] at hpv
          exact hpv
        · rw [collapseCurrentDelegators]
          simp only [curDelsStack, List.map_cons, collapseIndex_cons]
          refine perm_of_lookupIndex_eq (nodupKeys_applyIndex hOK' hCrest) ?_ ?_
          · simp only [NodupKeys, List.map_cons, List.nodup_cons]
            exact ⟨lookupIndex_eq_none_iff.mp hml, hmnd⟩
          · intro k
            rw [hpoint k, lookupIndex_cons]
            by_cases hk : k = dKey s'
            · subst hk
              rw [if_pos rfl, if_pos rfl]
            · rw [if_neg hk, if_neg (fun hEq => hk hEq.symm), ← hCV,
                lookupIndex_eq_of_perm hpd hCn k]
    · -- the delegator identity is already present: duplicate on both sides
      rw [if_pos (by simp [hml])]
      have hCsome : (lookupIndex dKey (dKey s')
          (collapseCurrentDelegators sys)).isSome = true := by
        rw [hlookEq, hml]
        simp
      have hsys : sysPutCurrentDelegator sys s' = .error .duplicateStaker := by
        rcases hdiffs : sys.diffs with _ | ⟨⟨i, d⟩, rest⟩
        · have hCeq : collapseCurrentDelegators sys = sys.baseState.mem.currentDelegators := by
            rw [collapseCurrentDelegators]
            simp [curDelsStack, hdiffs, collapseIndex_nil]
          simp only [sysPutCurrentDelegator, hdiffs, putIndex]
          rw [if_pos (by rw [← hCeq]; exact hCsome)]
        · have hstackd : curDelsStack sys =
              d.currentDelegatorsDiff :: rest.map (fun p => p.2.currentDelegatorsDiff) := by
            simp [curDelsStack, hdiffs]
          rw [hstackd] at hwd
          obtain ⟨hwrest, hdOK⟩ := hwd
          have hparent : lookupStack dKey sys.baseState.mem.currentDelegators
              (rest.map (fun p => p.2.currentDelegatorsDiff)) (dKey s') =
              lookupIndex dKey (dKey s')
                (collapseIndex dKey sys.baseState.mem.currentDelegators
                  (rest.map (fun p => p.2.currentDelegatorsDiff))) :=
            lookupStack_eq_lookup_collapse hbnd hwrest _
          have hCV : collapseCurrentDelegators sys =
              applyIndex dKey d.currentDelegatorsDiff
                (collapseIndex dKey sys.baseState.mem.currentDelegators
                  (rest.map (fun p => p.2.currentDelegatorsDiff))) := by
            rw [collapseCurrentDelegators, hstackd, collapseIndex_cons]
          have hdiffsome : (diffIndexLookup dKey d.currentDelegatorsDiff (dKey s')
              (lookupIndex dKey (dKey s')
                (collapseIndex dKey sys.baseState.mem.currentDelegators
                  (rest.map (fun p => p.2.currentDelegatorsDiff))))).isSome := by
            rw [← lookupIndex_applyIndex hdOK, ← hCV]
            exact hCsome
          simp only [sysPutCurrentDelegator, hdiffs]
          rw [hparent, diffIndexPut_dup hdiffsome]
      rw [hsys]
      simp only [discardErr]
      exact ⟨⟨hmnv, hmnd, hmpv, hmpd⟩, ⟨hbnv, hbnd, hwv, hwd⟩, hpv, hpd⟩

theorem findFirstValidator_mem {m : StakersStorageModel} {v : Staker}
    (hmpd : ∀ s ∈ m.currentDelegators, isCurrentDelegatorPriority s.priority = true)
    (hfind : m.getCurrentStakerIterator.find?
      (fun t => isCurrentValidatorPriority t.priority) = some v) :
    v ∈ m.currentValidators ∧ isCurrentValidatorPriority v.priority = true := by
  have hpri : isCurrentValidatorPriority v.priority = true := by
    simpa using List.find?_some hfind
  have hmem := List.mem_of_find?_eq_some hfind
  rw [StakersStorageModel.getCurrentStakerIterator,
    (sortStakers_perm _).mem_iff, List.mem_append] at hmem
  rcases hmem with hmem | hmem
  · exact ⟨hmem, hpri⟩
  · have := hmpd v hmem
    rw [valPri_not_delPri hpri] at this
    cases this

theorem findFirstDelegator_mem {m : StakersStorageModel} {v : Staker}
    (hmpv : ∀ s ∈ m.currentValidators, isCurrentValidatorPriority s.priority = true)
    (hfind : m.getCurrentStakerIterator.find?
      (fun t => isCurrentDelegatorPriority t.priority) = some v) :
    v ∈ m.currentDelegators ∧ isCurrentDelegatorPriority v.priority = true := by
  have hpri : isCurrentDelegatorPriority v.priority = true := by
    simpa using List.find?_some hfind
  have hmem := List.mem_of_find?_eq_some hfind
  rw [StakersStorageModel.getCurrentStakerIterator,
    (sortStakers_perm _).mem_iff, List.mem_append] at hmem
  rcases hmem with hmem | hmem
  · have := hmpv v hmem
    rw [delPri_not_valPri hpri] at this
    cases this
  · exact ⟨hmem, hpri⟩

theorem inv_runDeleteCurrentValidator {m : StakersStorageModel} {sys : SysUnderTest}
    (hInv : Inv m sys) :
    Inv (runModelCmd .deleteCurrentValidator m) (runSysCmd .deleteCurrentValidator sys) := by
  have hiter := getCurrentStakerIter_eq_of_inv hInv
  obtain ⟨hm, hs, hpv, hpd⟩ := hInv
  obtain ⟨hmnv, hmnd, hmpv, hmpd⟩ := hm
  obtain ⟨hbnv, hbnd, hwv, hwd⟩ := hs
  simp only [runModelCmd, runSysCmd, findFirstValidator, hiter]
  rcases hfind : m.getCurrentStakerIterator.find?
      (fun t => isCurrentValidatorPriority t.priority) with _ | v
  · simp only [hfind]
    exact ⟨⟨hmnv, hmnd, hmpv, hmpd⟩, ⟨hbnv, hbnd, hwv, hwd⟩, hpv, hpd⟩
  · simp only [hfind]
    obtain ⟨hvm, hvpri⟩ := findFirstValidator_mem hmpd hfind
    have hCn : NodupKeys vKey (collapseCurrentValidators sys) :=
      nodupKeys_collapseIndex hbnv hwv
    have hml : lookupIndex vKey (vKey v) m.currentValidators = some v :=
      lookupIndex_self_of_nodup hmnv hvm
    have hCsomev : lookupIndex vKey (vKey v) (collapseCurrentValidators sys) = some v :=
      (lookupIndex_eq_of_perm hpv hCn _).trans hml
    have hInvModel : ModelWFCurrent
        { m with currentValidators := removeKey vKey (vKey v) m.currentValidators } := by
      refine ⟨nodupKeys_removeKey _ hmnv, hmnd, ?_, hmpd⟩
      intro t ht
      exact hmpv t (mem_removeKey.mp ht).1
    simp only [StakersStorageModel.deleteCurrentValidator, deleteIndex]
    rw [if_pos (by simp [hml])]
    rcases hdiffs : sys.diffs with _ | ⟨⟨i, d⟩, rest⟩
    · -- deletion on the base state
      have hCeq : collapseCurrentValidators sys = sys.baseState.mem.currentValidators := by
        rw [collapseCurrentValidators]
        simp [curValsStack, hdiffs, collapseIndex_nil]
      simp only [sysDeleteCurrentValidator, hdiffs, deleteIndex]
      rw [if_pos (by rw [← hCeq]; simp [hCsomev])]
      simp only [discardErr]
      refine ⟨hInvModel, ⟨nodupKeys_removeKey _ hbnv, hbnd, ?_, ?_⟩, ?_, ?_⟩
      · simp only [curValsStack, hdiffs, List.map_nil]
        trivial
      · simp only [curDelsStack, hdiffs, List.map_nil]
        trivial
      · rw [collapseCurrentValidators]
        simp only [curValsStack, hdiffs, List.map_nil, collapseIndex_nil]
        refine perm_of_lookupIndex_eq (nodupKeys_removeKey _ hbnv)
          (nodupKeys_removeKey _ hmnv) ?_
        intro k
        rw [lookupIndex_removeKey, lookupIndex_removeKey]
        by_cases hk : k = vKey v
        · rw [if_pos hk, if_pos hk]
        · rw [if_neg hk, if_neg hk, ← hCeq,
            lookupIndex_eq_of_perm hpv hCn k]
      · rw [collapseCurrentDelegators]
        simp only [curDelsStack, hdiffs, List.map_nil, collapseIndex_nil]
        rw [collapseCurrentDelegators, curDelsStack, hdiffs] at hpd
        simpa using hpd
    · -- deletion through the top diff
      have hstackv : curValsStack sys =
          d.currentValidatorsDiff :: rest.map (fun p => p.2.currentValidatorsDiff) := by
        simp [curValsStack, hdiffs]
      have hstackd : curDelsStack sys =
          d.currentDelegatorsDiff :: rest.map (fun p => p.2.currentDelegatorsDiff) := by
        simp [curDelsStack, hdiffs]
      rw [hstackv] at hwv
      obtain ⟨hwrest, hdOK⟩ := hwv
      have hCrest : NodupKeys vKey
          (collapseIndex vKey sys.baseState.mem.currentValidators
            (rest.map (fun p => p.2.currentValidatorsDiff))) :=
        nodupKeys_collapseIndex hbnv hwrest
      have hparent : lookupStack vKey sys.baseState.mem.currentValidators
          (rest.map (fun p => p.2.currentValidatorsDiff)) (vKey v) =
          lookupIndex vKey (vKey v)
            (collapseIndex vKey sys.baseState.mem.currentValidators
              (rest.map (fun p => p.2.currentValidatorsDiff))) :=
        lookupStack_eq_lookup_collapse hbnv hwrest _
      have hCV : collapseCurrentValidators sys =
          applyIndex vKey d.currentValidatorsDiff
            (collapseIndex vKey sys.baseState.mem.currentValidators
              (rest.map (fun p => p.2.currentValidatorsDiff))) := by
        rw [collapseCurrentValidators, hstackv, collapseIndex_cons]
      have hdiffsome : (diffIndexLookup vKey d.currentValidatorsDiff (vKey v)
          (lookupIndex vKey (vKey v)
            (collapseIndex vKey sys.baseState.mem.currentValidators
              (rest.map (fun p => p.2.currentValidatorsDiff))))).isSome := by
        rw [← lookupIndex_applyIndex hdOK, ← hCV, hCsomev]
        simp
      obtain ⟨di', hdel, hOK', hpoint⟩ :=
        diffIndexDelete_collapse hdOK hCrest hdiffsome
      simp only [sysDeleteCurrentValidator, hdiffs]
      rw [hparent, hdel]
      simp only [discardErr]
      refine ⟨hInvModel, ⟨hbnv, hbnd, ?_, ?_⟩, ?_, ?_⟩
      · simp only [curValsStack, List.map_cons]
        exact ⟨hwrest, hOK'⟩
      · simp only [curDelsStack, List.map_cons]
        rw [hstackd] at hwd
        exact hwd
      · rw [collapseCurrentValidators]
        simp only [curValsStack, List.map_cons, collapseIndex_cons]
        refine perm_of_lookupIndex_eq (nodupKeys_applyIndex hOK' hCrest)
          (nodupKeys_removeKey _ hmnv) ?_
        intro k
        rw [hpoint k, lookupIndex_removeKey]
        by_cases hk : k = vKey v
        · rw [if_pos hk, if_pos hk]
        · rw [if_neg hk, if_neg hk, ← hCV,
            lookupIndex_eq_of_perm hpv hCn k]
      · rw [collapseCurrentDelegators]
        simp only [curDelsStack, List.map_cons, collapseIndex_cons]
        rw [collapseCurrentDelegators, hstackd, collapseIndex_cons] at hpd
        exact hpd

theorem inv_runDeleteCurrentDelegator {m : StakersStorageModel} {sys : SysUnderTest}
    (hInv : Inv m sys) :
    Inv (runModelCmd .deleteCurrentDelegator m) (runSysCmd .deleteCurrentDelegator sys) := by
  have hiter := getCurrentStakerIter_eq_of_inv hInv
  obtain ⟨hm, hs, hpv, hpd⟩ := hInv
  obtain ⟨hmnv, hmnd, hmpv, hmpd⟩ := hm
  obtain ⟨hbnv, hbnd, hwv, hwd⟩ := hs
  simp only [runModelCmd, runSysCmd, findFirstDelegator, hiter]
  rcases hfind : m.getCurrentStakerIterator.find?
      (fun t => isCurrentDelegatorPriority t.priority) with _ | v
  · simp only [hfind]
    exact ⟨⟨hmnv, hmnd, hmpv, hmpd⟩, ⟨hbnv, hbnd, hwv, hwd⟩, hpv, hpd⟩
  · simp only [hfind]
    obtain ⟨hvm, hvpri⟩ := findFirstDelegator_mem hmpv hfind
    have hCn : NodupKeys dKey (collapseCurrentDelegators sys) :=
      nodupKeys_collapseIndex hbnd hwd
    have hml : lookupIndex dKey (dKey v) m.currentDelegators = some v :=
      lookupIndex_self_of_nodup hmnd hvm
    have hCsomev : lookupIndex dKey (dKey v) (collapseCurrentDelegators sys) = some v :=
      (lookupIndex_eq_of_perm hpd hCn _).trans hml
    have hInvModel : ModelWFCurrent
        { m with currentDelegators := removeKey dKey (dKey v) m.currentDelegators } := by
      refine ⟨hmnv, nodupKeys_removeKey _ hmnd, hmpv, ?_⟩
      intro t ht
      exact hmpd t (mem_removeKey.mp ht).1
    simp only [StakersStorageModel.deleteCurrentDelegator, deleteIndex]
    rw [if_pos (by simp [hml])]
    rcases hdiffs : sys.diffs with _ | ⟨⟨i, d⟩, rest⟩
    · have hCeq : collapseCurrentDelegators sys = sys.baseState.mem.currentDelegators := by
        rw [collapseCurrentDelegators]
        simp [curDelsStack, hdiffs, collapseIndex_nil]
      simp only [sysDeleteCurrentDelegator, hdiffs, deleteIndex]
      rw [if_pos (by rw [← hCeq]; simp [hCsomev])]
      simp only [discardErr]
      refine ⟨hInvModel, ⟨hbnv, nodupKeys_removeKey _ hbnd, ?_, ?_⟩, ?_, ?_⟩
      · simp only [curValsStack, hdiffs, List.map_nil]
        trivial
      · simp only [curDelsStack, hdiffs, List.map_nil]
        trivial
      · rw [collapseCurrentValidators]
        simp only [curValsStack, hdiffs, List.map_nil, collapseIndex_nil]
        rw [collapseCurrentValidators, curValsStack, hdiffs] at hpv
        simpa using hpv
      · rw [collapseCurrentDelegators]
        simp only [curDelsStack, hdiffs, List.map_nil, collapseIndex_nil]
        refine perm_of_lookupIndex_eq (nodupKeys_removeKey _ hbnd)
          (nodupKeys_removeKey _ hmnd) ?_
        intro k
        rw [lookupIndex_removeKey, lookupIndex_removeKey]
        by_cases hk : k = dKey v
        · rw [if_pos hk, if_pos hk]
        · rw [if_neg hk, if_neg hk, ← hCeq,
            lookupIndex_eq_of_perm hpd hCn k]
    · have hstackv : curValsStack sys =
          d.currentValidatorsDiff :: rest.map (fun p => p.2.currentValidatorsDiff) := by
        simp [curValsStack, hdiffs]
      have hstackd : curDelsStack sys =
          d.currentDelegatorsDiff :: rest.map (fun p => p.2.currentDelegatorsDiff) := by
        simp [curDelsStack, hdiffs]
      rw [hstackd] at hwd
      obtain ⟨hwrest, hdOK⟩ := hwd
      have hCrest : NodupKeys dKey
          (collapseIndex dKey sys.baseState.mem.currentDelegators
            (rest.map (fun p => p.2.currentDelegatorsDiff))) :=
        nodupKeys_collapseIndex hbnd hwrest
      have hparent : lookupStack dKey sys.baseState.mem.currentDelegators
          (rest.map (fun p => p.2.currentDelegatorsDiff)) (dKey v) =
          lookupIndex dKey (dKey v)
            (collapseIndex dKey sys.baseState.mem.currentDelegators
              (rest.map (fun p => p.2.currentDelegatorsDiff))) :=
        lookupStack_eq_lookup_collapse hbnd hwrest _
      have hCV : collapseCurrentDelegators sys =
          applyIndex dKey d.currentDelegatorsDiff
            (collapseIndex dKey sys.baseState.mem.currentDelegators
              (rest.map (fun p => p.2.currentDelegatorsDiff))) := by
        rw [collapseCurrentDelegators, hstackd, collapseIndex_cons]
      have hdiffsome : (diffIndexLookup dKey d.currentDelegatorsDiff (dKey v)
          (lookupIndex dKey (dKey v)
            (collapseIndex dKey sys.baseState.mem.currentDelegators
              (rest.map (fun p => p.2.currentDelegatorsDiff))))).isSome := by
        rw [← lookupIndex_applyIndex hdOK, ← hCV, hCsomev]
        simp
      obtain ⟨di', hdel, hOK', hpoint⟩ :=
        diffIndexDelete_collapse hdOK hCrest hdiffsome
      simp only [sysDeleteCurrentDelegator, hdiffs]
      rw [hparent, hdel]
      simp only [discardErr]
      refine ⟨hInvModel, ⟨hbnv, hbnd, ?_, ?_⟩, ?_, ?_⟩
      · simp only [curValsStack, List.map_cons]
        rw [hstackv] at hwv
        exact hwv
      · simp only [curDelsStack, List.map_cons]
        exact ⟨hwrest, hOK'⟩
      · rw [collapseCurrentValidators]
        simp only [curValsStack, List.map_cons, collapseIndex_cons]
        rw [collapseCurrentValidators, hstackv, collapseIndex_cons] at hpv
        exact hpv
      · rw [collapseCurrentDelegators]
        simp only [curDelsStack, List.map_cons, collapseIndex_cons]
        refine perm_of_lookupIndex_eq (nodupKeys_applyIndex hOK' hCrest)
          (nodupKeys_removeKey _ hmnd) ?_
        intro k
        rw [hpoint k, lookupIndex_removeKey]
        by_cases hk : k = dKey v
        · rw [if_pos hk, if_pos hk]
        · rw [if_neg hk, if_neg hk, ← hCV,
            lookupIndex_eq_of_perm hpd hCn k]

theorem inv_runUpdateCurrentValidator {m : StakersStorageModel} {sys : SysUnderTest}
    {f : Staker → Staker} (hInv : Inv m sys)
    (hfk : ∀ v : Staker, vKey (f v) = vKey v)
    (hfp : ∀ v : Staker, (f v).priority = v.priority) :
    Inv (runUpdateCurrentValidatorModel f m) (runUpdateCurrentValidatorSys f sys) := by
  have hiter := getCurrentStakerIter_eq_of_inv hInv
  have hInv1 := inv_addDiffOnTop hInv
  obtain ⟨hm, hs, hpv, hpd⟩ := hInv
  obtain ⟨hmnv, hmnd, hmpv, hmpd⟩ := hm
  obtain ⟨hbnv, hbnd, hwv, hwd⟩ := hs
  simp only [runUpdateCurrentValidatorModel, runUpdateCurrentValidatorSys,
    findFirstValidator, hiter]
  rcases hfind : m.getCurrentStakerIterator.find?
      (fun t => isCurrentValidatorPriority t.priority) with _ | v
  · simp only [hfind]
    exact ⟨⟨hmnv, hmnd, hmpv, hmpd⟩, ⟨hbnv, hbnd, hwv, hwd⟩, hpv, hpd⟩
  · simp only [hfind]
    obtain ⟨hvm, hvpri⟩ := findFirstValidator_mem hmpd hfind
    have hCn : NodupKeys vKey (collapseCurrentValidators sys) :=
      nodupKeys_collapseIndex hbnv hwv
    have hml : lookupIndex vKey (vKey v) m.currentValidators = some v :=
      lookupIndex_self_of_nodup hmnv hvm
    have hCsomev : lookupIndex vKey (vKey v) (collapseCurrentValidators sys) = some v :=
      (lookupIndex_eq_of_perm hpv hCn _).trans hml
    have hchain : chainGetCurrentValidator (addDiffOnTop sys) v.subnetID v.nodeID
        = some v := by
      rw [chainGetCurrentValidator_collapse hInv1.2.1,
        collapseCurrentValidators_addDiffOnTop]
      exact hCsomev
    simp only [hchain]
    -- the model update succeeds
    have hmlf : lookupIndex vKey (vKey (f v)) m.currentValidators = some v := by
      rw [hfk]
      exact hml
    simp only [StakersStorageModel.updateCurrentValidator, updateIndex]
    rw [if_pos (by simp [hmlf])]
    -- the system update lands on the fresh empty top diff
    have hCsomef : (lookupIndex vKey (vKey (f v))
        (collapseCurrentValidators sys)).isSome := by
      rw [hfk, hCsomev]
      simp
    obtain ⟨hupdeq, hOK', hpoint⟩ := @diffIndexUpdate_empty_spec (Nat × Nat) _
      vKey (f v) (collapseCurrentValidators sys) hCsomef
    have hparent : lookupStack vKey sys.baseState.mem.currentValidators
        (sys.diffs.map (fun p => p.2.currentValidatorsDiff)) (vKey (f v)) =
        lookupIndex vKey (vKey (f v)) (collapseCurrentValidators sys) :=
      lookupStack_eq_lookup_collapse hbnv hwv _
    simp only [sysUpdateCurrentValidator, addDiffOnTop, newDiff]
    rw [hparent, hupdeq]
    have hInvModel : ModelWFCurrent
        { m with currentValidators := replaceByKey vKey (f v) m.currentValidators } := by
      refine ⟨?_, hmnd, ?_, hmpd⟩
      · rw [NodupKeys, keysOf_replaceByKey]
        exact hmnv
      · intro t ht
        rcases mem_replaceByKey ht with ht | ht
        · subst ht
          rw [hfp]
          exact hvpri
        · exact hmpv t ht
    refine ⟨hInvModel, ⟨hbnv, hbnd, ?_, ?_⟩, ?_, ?_⟩
    · simp only [curValsStack, List.map_cons]
      exact ⟨hwv, hOK'⟩
    · simp only [curDelsStack, List.map_cons]
      exact ⟨hwd, diffIndexOK_empty _ _⟩
    · rw [collapseCurrentValidators]
      simp only [curValsStack, List.map_cons, collapseIndex_cons]
      refine perm_of_lookupIndex_eq (nodupKeys_applyIndex hOK' hCn) ?_ ?_
      · rw [NodupKeys, keysOf_replaceByKey]
        exact hmnv
      · intro k
        rw [show collapseIndex vKey sys.baseState.mem.currentValidators
            (List.map (fun p => p.2.currentValidatorsDiff) sys.diffs) =
            collapseCurrentValidators sys from rfl, hpoint k, lookupIndex_replaceByKey]
        by_cases hk : k = vKey (f v)
        · rw [if_pos hk, if_pos hk, if_pos (by rw [hk]; simp [hmlf])]
        · rw [if_neg hk, if_neg hk, lookupIndex_eq_of_perm hpv hCn k]
    · rw [collapseCurrentDelegators]
      simp only [curDelsStack, List.map_cons, collapseIndex_cons, applyIndex_empty]
      exact hpd

theorem inv_runUpdateCurrentDelegator {m : StakersStorageModel} {sys : SysUnderTest}
    {f : Staker → Staker} (hInv : Inv m sys)
    (hfk : ∀ v : Staker, dKey (f v) = dKey v)
    (hfp : ∀ v : Staker, (f v).priority = v.priority) :
    Inv (runUpdateCurrentDelegatorModel f m) (runUpdateCurrentDelegatorSys f sys) := by
  have hiter := getCurrentStakerIter_eq_of_inv hInv
  obtain ⟨hm, hs, hpv, hpd⟩ := hInv
  obtain ⟨hmnv, hmnd, hmpv, hmpd⟩ := hm
  obtain ⟨hbnv, hbnd, hwv, hwd⟩ := hs
  simp only [runUpdateCurrentDelegatorModel, runUpdateCurrentDelegatorSys,
    findFirstDelegator, hiter]
  rcases hfind : m.getCurrentStakerIterator.find?
      (fun t => isCurrentDelegatorPriority t.priority) with _ | v
  · simp only [hfind]
    exact ⟨⟨hmnv, hmnd, hmpv, hmpd⟩, ⟨hbnv, hbnd, hwv, hwd⟩, hpv, hpd⟩
  · simp only [hfind]
    obtain ⟨hvm, hvpri⟩ := findFirstDelegator_mem hmpv hfind
    have hCn : NodupKeys dKey (collapseCurrentDelegators sys) :=
      nodupKeys_collapseIndex hbnd hwd
    have hml : lookupIndex dKey (dKey v) m.currentDelegators = some v :=
      lookupIndex_self_of_nodup hmnd hvm
    have hCsomev : lookupIndex dKey (dKey v) (collapseCurrentDelegators sys) = some v :=
      (lookupIndex_eq_of_perm hpd hCn _).trans hml
    have hmlf : lookupIndex dKey (dKey (f v)) m.currentDelegators = some v := by
      rw [hfk]
      exact hml
    simp only [StakersStorageModel.updateCurrentDelegator, updateIndex]
    rw [if_pos (by simp [hmlf])]
    have hCsomef : (lookupIndex dKey (dKey (f v))
        (collapseCurrentDelegators sys)).isSome := by
      rw [hfk, hCsomev]
      simp
    obtain ⟨hupdeq, hOK', hpoint⟩ := @diffIndexUpdate_empty_spec (Nat × Nat × Nat) _
      dKey (f v) (collapseCurrentDelegators sys) hCsomef
    have hparent : lookupStack dKey sys.baseState.mem.currentDelegators
        (sys.diffs.map (fun p => p.2.currentDelegatorsDiff)) (dKey (f v)) =
        lookupIndex dKey (dKey (f v)) (collapseCurrentDelegators sys) :=
      lookupStack_eq_lookup_collapse hbnd hwd _
    simp only [sysUpdateCurrentDelegator, addDiffOnTop, newDiff]
    rw [hparent, hupdeq]
    have hInvModel : ModelWFCurrent
        { m with currentDelegators := replaceByKey dKey (f v) m.currentDelegators } := by
      refine ⟨hmnv, ?_, hmpv, ?_⟩
      · rw [NodupKeys, keysOf_replaceByKey]
        exact hmnd
      · intro t ht
        rcases mem_replaceByKey ht with ht | ht
        · subst ht
          rw [hfp]
          exact hvpri
        · exact hmpd t ht
    refine ⟨hInvModel, ⟨hbnv, hbnd, ?_, ?_⟩, ?_, ?_⟩
    · simp only [curValsStack, List.map_cons]
      exact ⟨hwv, diffIndexOK_empty _ _⟩
    · simp only [curDelsStack, List.map_cons]
      exact ⟨hwd, hOK'⟩
    · rw [collapseCurrentValidators]
      simp only [curValsStack, List.map_cons, collapseIndex_cons, applyIndex_empty]
      exact hpv
    · rw [collapseCurrentDelegators]
      simp only [curDelsStack, List.map_cons, collapseIndex_cons]
      refine perm_of_lookupIndex_eq (nodupKeys_applyIndex hOK' hCn) ?_ ?_
      · rw [NodupKeys, keysOf_replaceByKey]
        exact hmnd
      · intro k
        rw [show collapseIndex dKey sys.baseState.mem.currentDelegators
            (List.map (fun p => p.2.currentDelegatorsDiff) sys.diffs) =
            collapseCurrentDelegators sys from rfl, hpoint k, lookupIndex_replaceByKey]
        by_cases hk : k = dKey (f v)
        · rw [if_pos hk, if_pos hk, if_pos (by rw [hk]; simp [hmlf])]
        · rw [if_neg hk, if_neg hk, lookupIndex_eq_of_perm hpd hCn k]

theorem flushBottomDiff_nil {sys : SysUnderTest} (h : sys.diffs = []) :
    flushBottomDiff sys = (sys, false) := by
  rw [flushBottomDiff, h]
  rfl

theorem flushBottomDiff_concat {sys : SysUnderTest} {l' : List (Nat × Diff)}
    {i : Nat} {d : Diff} (h : sys.diffs = l'.concat (i, d)) :
    flushBottomDiff sys =
      ({ sys with
          baseState := { sys.baseState with
            mem := applyDiffToModel d sys.baseState.mem,
            lastAccepted := i },
          diffs := l' }, true) := by
  rw [flushBottomDiff, h, List.concat_eq_append, List.getLast?_concat,
    List.dropLast_concat]

theorem inv_flushBottomDiff {m : StakersStorageModel} {sys : SysUnderTest}
    (hInv : Inv m sys) : Inv m (flushBottomDiff sys).1 := by
  rcases List.eq_nil_or_concat sys.diffs with hdiffs | ⟨l', ⟨i, d⟩, hdiffs⟩
  · rw [flushBottomDiff_nil hdiffs]
    exact hInv
  · rw [flushBottomDiff_concat hdiffs]
    obtain ⟨hm, hs, hpv, hpd⟩ := hInv
    obtain ⟨hbnv, hbnd, hwv, hwd⟩ := hs
    have hsv : curValsStack sys =
        l'.map (fun p => p.2.currentValidatorsDiff) ++ [d.currentValidatorsDiff] := by
      rw [curValsStack, hdiffs, List.concat_eq_append, List.map_append]
      rfl
    have hsd : curDelsStack sys =
        l'.map (fun p => p.2.currentDelegatorsDiff) ++ [d.currentDelegatorsDiff] := by
      rw [curDelsStack, hdiffs, List.concat_eq_append, List.map_append]
      rfl
    rw [hsv] at hwv
    rw [hsd] at hwd
    obtain ⟨hOKv, hwv'⟩ := (wfStack_append_singleton _ _ _ _).mp hwv
    obtain ⟨hOKd, hwd'⟩ := (wfStack_append_singleton _ _ _ _).mp hwd
    have hcv : collapseCurrentValidators sys =
        collapseIndex vKey
          (applyIndex vKey d.currentValidatorsDiff sys.baseState.mem.currentValidators)
          (l'.map (fun p => p.2.currentValidatorsDiff)) := by
      rw [collapseCurrentValidators, hsv, collapseIndex_append_singleton]
    have hcd : collapseCurrentDelegators sys =
        collapseIndex dKey
          (applyIndex dKey d.currentDelegatorsDiff sys.baseState.mem.currentDelegators)
          (l'.map (fun p => p.2.currentDelegatorsDiff)) := by
      rw [collapseCurrentDelegators, hsd, collapseIndex_append_singleton]
    refine ⟨hm, ⟨?_, ?_, ?_, ?_⟩, ?_, ?_⟩
    · exact nodupKeys_applyIndex hOKv hbnv
    · exact nodupKeys_applyIndex hOKd hbnd
    · simp only [curValsStack, List.map_cons, applyDiffToModel]
      exact hwv'
    · simp only [curDelsStack, List.map_cons, applyDiffToModel]
      exact hwd'
    · rw [collapseCurrentValidators]
      simp only [curValsStack, applyDiffToModel]
      rw [← hcv]
      exact hpv
    · rw [collapseCurrentDelegators]
      simp only [curDelsStack, applyDiffToModel]
      rw [← hcd]
      exact hpd

theorem inv_commitSys {m : StakersStorageModel} {sys : SysUnderTest}
    (hInv : Inv m sys) : Inv m (commitSys sys) :=
  hInv

theorem flushAllLoop_spec : ∀ (n : Nat) (sys : SysUnderTest),
    sys.diffs.length ≤ n →
    (flushAllLoop n sys).diffs = [] ∧
    (flushAllLoop n sys).baseState.mem.currentValidators = collapseCurrentValidators sys ∧
    (flushAllLoop n sys).baseState.mem.currentDelegators = collapseCurrentDelegators sys
  | 0, sys, h => by
    have hdiffs : sys.diffs = [] := List.eq_nil_of_length_eq_zero (Nat.le_zero.mp h)
    refine ⟨hdiffs, ?_, ?_⟩
    · rw [collapseCurrentValidators, curValsStack, hdiffs]
      rfl
    · rw [collapseCurrentDelegators, curDelsStack, hdiffs]
      rfl
  | n + 1, sys, h => by
    rcases List.eq_nil_or_concat sys.diffs with hdiffs | ⟨l', ⟨i, d⟩, hdiffs⟩
    · rw [flushAllLoop, flushBottomDiff_nil hdiffs]
      refine ⟨hdiffs, ?_, ?_⟩
      · rw [collapseCurrentValidators, curValsStack, hdiffs]
        rfl
      · rw [collapseCurrentDelegators, curDelsStack, hdiffs]
        rfl
    · have hlen : l'.length + 1 = sys.diffs.length := by
        rw [hdiffs, List.concat_eq_append, List.length_append]
        rfl
      have hle : (commitSys (flushBottomDiff sys).1).diffs.length ≤ n := by
        rw [flushBottomDiff_concat hdiffs]
        simp only [commitSys]
        omega
      have hrun : flushAllLoop (n + 1) sys =
          flushAllLoop n (commitSys (flushBottomDiff sys).1) := by
        rw [flushAllLoop, flushBottomDiff_concat hdiffs]
        rfl
      obtain ⟨h1, h2, h3⟩ := flushAllLoop_spec n (commitSys (flushBottomDiff sys).1) hle
      have hsv : curValsStack sys =
          l'.map (fun p => p.2.currentValidatorsDiff) ++ [d.currentValidatorsDiff] := by
        rw [curValsStack, hdiffs, List.concat_eq_append, List.map_append]
        rfl
      have hsd : curDelsStack sys =
          l'.map (fun p => p.2.currentDelegatorsDiff) ++ [d.currentDelegatorsDiff] := by
        rw [curDelsStack, hdiffs, List.concat_eq_append, List.map_append]
        rfl
      have hcv : collapseCurrentValidators (commitSys (flushBottomDiff sys).1) =
          collapseCurrentValidators sys := by
        rw [flushBottomDiff_concat hdiffs]
        rw [show collapseCurrentValidators (commitSys
            ({ sys with
                baseState := { sys.baseState with
                  mem := applyDiffToModel d sys.baseState.mem,
                  lastAccepted := i },
                diffs := l' }, true).1) =
            collapseIndex vKey
              (applyIndex vKey d.currentValidatorsDiff sys.baseState.mem.currentValidators)
              (l'.map (fun p => p.2.currentValidatorsDiff)) from rfl]
        rw [collapseCurrentValidators, hsv, collapseIndex_append_singleton]
      have hcd : collapseCurrentDelegators (commitSys (flushBottomDiff sys).1) =
          collapseCurrentDelegators sys := by
        rw [flushBottomDiff_concat hdiffs]
        rw [show collapseCurrentDelegators (commitSys
            ({ sys with
                baseState := { sys.baseState with
                  mem := applyDiffToModel d sys.baseState.mem,
                  lastAccepted := i },
                diffs := l' }, true).1) =
            collapseIndex dKey
              (applyIndex dKey d.currentDelegatorsDiff sys.baseState.mem.currentDelegators)
              (l'.map (fun p => p.2.currentDelegatorsDiff)) from rfl]
        rw [collapseCurrentDelegators, hsd, collapseIndex_append_singleton]
      refine ⟨?_, ?_, ?_⟩
      · rw [hrun]
        exact h1
      · rw [hrun, h2, hcv]
      · rw [hrun, h3, hcd]

theorem rebuildStateRun_mem (sys : SysUnderTest) :
    (rebuildStateRun sys).diffs = [] ∧
    (rebuildStateRun sys).baseState.mem.currentValidators = collapseCurrentValidators sys ∧
    (rebuildStateRun sys).baseState.mem.currentDelegators = collapseCurrentDelegators sys := by
  obtain ⟨h1, h2, h3⟩ := flushAllLoop_spec sys.diffs.length sys le_rfl
  exact ⟨rfl, h2, h3⟩

theorem inv_rebuildState {m : StakersStorageModel} {sys : SysUnderTest}
    (hInv : Inv m sys) : Inv m (rebuildStateRun sys) := by
  obtain ⟨hd, hv, hdl⟩ := rebuildStateRun_mem sys
  obtain ⟨hm, hs, hpv, hpd⟩ := hInv
  obtain ⟨hbnv, hbnd, hwv, hwd⟩ := hs
  have hCnv : NodupKeys vKey (collapseCurrentValidators sys) :=
    nodupKeys_collapseIndex hbnv hwv
  have hCnd : NodupKeys dKey (collapseCurrentDelegators sys) :=
    nodupKeys_collapseIndex hbnd hwd
  refine ⟨hm, ⟨?_, ?_, ?_, ?_⟩, ?_, ?_⟩
  · rw [hv]
    exact hCnv
  · rw [hdl]
    exact hCnd
  · rw [curValsStack, hd]
    trivial
  · rw [curDelsStack, hd]
    trivial
  · rw [collapseCurrentValidators, curValsStack, hd]
    simp only [List.map_nil, collapseIndex_nil]
    rw [hv]
    exact hpv
  · rw [collapseCurrentDelegators, curDelsStack, hd]
    simp only [List.map_nil, collapseIndex_nil]
    rw [hdl]
    exact hpd

theorem inv_runCmd {m : StakersStorageModel} {sys : SysUnderTest}
    (c : HarnessCmd) (hc : cmdOK c = true) (hInv : Inv m sys) :
    Inv (runModelCmd c m) (runSysCmd c sys) := by
  cases c with
  | putCurrentValidator s =>
    exact inv_runPutCurrentValidator hInv (by simpa [cmdOK] using hc)
  | shiftCurrentValidator =>
    exact inv_runUpdateCurrentValidator hInv (fun v => rfl) (fun v => rfl)
  | updateStakingPeriodCurrentValidator =>
    exact inv_runUpdateCurrentValidator hInv (fun v => rfl) (fun v => rfl)
  | increaseWeightCurrentValidator =>
    exact inv_runUpdateCurrentValidator hInv (fun v => rfl) (fun v => rfl)
  | deleteCurrentValidator => exact inv_runDeleteCurrentValidator hInv
  | putCurrentDelegator s =>
    exact inv_runPutCurrentDelegator hInv (by simpa [cmdOK] using hc)
  | shiftCurrentDelegator =>
    exact inv_runUpdateCurrentDelegator hInv (fun v => rfl) (fun v => rfl)
  | updateStakingPeriodCurrentDelegator =>
    exact inv_runUpdateCurrentDelegator hInv (fun v => rfl) (fun v => rfl)
  | increaseWeightCurrentDelegator =>
    exact inv_runUpdateCurrentDelegator hInv (fun v => rfl) (fun v => rfl)
  | deleteCurrentDelegator => exact inv_runDeleteCurrentDelegator hInv
  | addTopDiff => exact inv_addDiffOnTop hInv
  | applyBottomDiff => exact inv_flushBottomDiff hInv
  | commitBottomState => exact inv_commitSys hInv
  | rebuildState => exact inv_rebuildState hInv

theorem inv_initial :
    Inv newStakersStorageModel (newSystemUnderTest newStakersStorageModel) := by
  refine ⟨⟨?_, ?_, ?_, ?_⟩, ⟨?_, ?_, ?_, ?_⟩, ?_, ?_⟩ <;>
    simp [newStakersStorageModel, newSystemUnderTest, seedIndex, emptyBaseState,
      BaseState.commit, NodupKeys, curValsStack, curDelsStack,
      collapseCurrentValidators, collapseCurrentDelegators, collapseIndex_nil] <;>
    trivial

theorem checkRunFrom_true {m : StakersStorageModel} {sys : SysUnderTest}
    (cmds : List HarnessCmd) (hall : ∀ c ∈ cmds, cmdOK c = true)
    (hInv : Inv m sys) : checkRunFrom m sys cmds = true := by
  induction cmds generalizing m sys with
  | nil => rfl
  | cons c cs ih =>
    have hInv' := inv_runCmd c (hall c (List.mem_cons_self c cs)) hInv
    rw [checkRunFrom]
    simp only [Bool.and_eq_true]
    exact ⟨check_true_of_inv hInv',
      ih (fun c' hc' => hall c' (List.mem_cons_of_mem c hc')) hInv'⟩

instance (m : StakersStorageModel) : Decidable (ModelWFCurrent m) := by
  unfold ModelWFCurrent
  infer_instance

instance (sys : SysUnderTest) : Decidable (SysWFCurrent sys) := by
  unfold SysWFCurrent
  infer_instance

instance (m : StakersStorageModel) (sys : SysUnderTest) : Decidable (Inv m sys) := by
  unfold Inv
  infer_instance

/-- A concrete current validator used to instantiate the verified properties. -/
def wVal : Staker := ⟨1, 10, 0, .primaryNetworkValidatorCurrent, 1000, 0, 86400, 86400⟩

/-- A concrete current delegator of the same validator. -/
def wDel : Staker := ⟨2, 10, 0, .primaryNetworkDelegatorCurrent, 500, 0, 86400, 86400⟩

/-- A second current validator, on a distinct node. -/
def wVal2 : Staker := ⟨5, 12, 0, .primaryNetworkValidatorCurrent, 1000, 0, 99000, 99000⟩

/-- A base state holding one validator and one delegator. -/
def wBase : BaseState := ⟨⟨[wVal], [wDel], [], []⟩, 0, newStakersStorageModel, 0⟩

/-- A system whose diff stack is empty. -/
def wSysEmpty : SysUnderTest := ⟨0, wBase, []⟩

/-- A one-diff overlay inserting the second validator. -/
def wDiffAdd : Diff := ⟨0, ⟨[wVal2], [], []⟩, emptyDiffIndex, emptyDiffIndex, emptyDiffIndex⟩

/-- A system with one diff on the stack. -/
def wSysOne : SysUnderTest := ⟨1, wBase, [(1, wDiffAdd)]⟩

/-- A command sequence exercising every kind of harness command. -/
def wCmds : List HarnessCmd :=
  [.putCurrentValidator wVal, .addTopDiff, .putCurrentDelegator wDel,
   .shiftCurrentValidator, .increaseWeightCurrentDelegator, .applyBottomDiff,
   .commitBottomState, .rebuildState, .updateStakingPeriodCurrentValidator,
   .deleteCurrentDelegator, .applyBottomDiff, .addTopDiff, .rebuildState,
   .deleteCurrentValidator, .deleteCurrentValidator]

/-- The iteration ordering stated by the specification: nextTime
non-decreasing, ties broken by txID ascending. -/
def stakerOrdClaim (a b : Staker) : Prop :=
  a.nextTime < b.nextTime ∨ (a.nextTime = b.nextTime ∧ a.txID ≤ b.txID)

theorem stakerLe_imp_ordClaim {a b : Staker} (h : StakerLe a b) :
    stakerOrdClaim a b := by
  by_cases h1 : a.nextTime < b.nextTime
  · exact Or.inl h1
  · by_cases h2 : a.nextTime = b.nextTime
    · by_cases h3 : a.txID ≤ b.txID
      · exact Or.inr ⟨h2, h3⟩
      · exfalso
        have htx : (b.txID : Int) < (a.txID : Int) := by
          exact_mod_cast Nat.lt_of_not_le h3
        have hlt : stakerSortKey b < stakerSortKey a := by
          rw [stakerSortKey, stakerSortKey, ← h2]
          exact List.Lex.cons (List.Lex.rel htx)
        exact absurd hlt (not_lt.mpr h)
    · exfalso
      have hnb : b.nextTime < a.nextTime :=
        lt_of_le_of_ne (not_lt.mp h1) (fun hEq => h2 hEq.symm)
      have hlt : stakerSortKey b < stakerSortKey a := by
        rw [stakerSortKey, stakerSortKey]
        exact List.Lex.rel hnb
      exact absurd hlt (not_lt.mpr h)

theorem chainIndexIter_sorted {κ : Type} [DecidableEq κ] (key : Staker → κ)
    (base : List Staker) : ∀ dis : List (DiffIndex κ),
      (chainIndexIter key base dis).Pairwise StakerLe
  | [] => sortStakers_sorted base
  | di :: rest =>
    mergeStakers_sorted ((chainIndexIter_sorted key base rest).filter _)
      (sortStakers_sorted _)

theorem getCurrentStakerIter_sorted (sys : SysUnderTest) :
    (getCurrentStakerIter sys).Pairwise StakerLe :=
  mergeStakers_sorted (chainIndexIter_sorted _ _ _) (chainIndexIter_sorted _ _ _)

theorem getPendingStakerIter_sorted (sys : SysUnderTest) :
    (getPendingStakerIter sys).Pairwise StakerLe :=
  mergeStakers_sorted (chainIndexIter_sorted _ _ _) (chainIndexIter_sorted _ _ _)

/-- Ordered chain lookup of a current delegator through the whole stack. -/
def chainGetCurrentDelegator (sys : SysUnderTest) (subnetID nodeID txID : Nat) :
    Option Staker :=
  lookupStack dKey sys.baseState.mem.currentDelegators
    (curDelsStack sys) (subnetID, nodeID, txID)

/-- The mutations a harness command can apply to the topmost layer. -/
inductive TopMutation where
  | putValidator (s : Staker)
  | updateValidator (s : Staker)
  | deleteValidator (s : Staker)
  | putDelegator (s : Staker)
  | updateDelegator (s : Staker)
  | deleteDelegator (s : Staker)
deriving DecidableEq, Repr

/-- Apply one mutation to the top layer, keeping the previous state when the
operation fails, exactly as the command Run methods do. -/
def applyTopMutation : TopMutation → SysUnderTest → SysUnderTest
  | .putValidator s, sys => discardErr sys (sysPutCurrentValidator sys s)
  | .updateValidator s, sys => discardErr sys (sysUpdateCurrentValidator sys s)
  | .deleteValidator s, sys => discardErr sys (sysDeleteCurrentValidator sys s)
  | .putDelegator s, sys => discardErr sys (sysPutCurrentDelegator sys s)
  | .updateDelegator s, sys => discardErr sys (sysUpdateCurrentDelegator sys s)
  | .deleteDelegator s, sys => discardErr sys (sysDeleteCurrentDelegator sys s)

/-- The parent view of a stacked system: the same chain with the topmost
diff removed. -/
def dropTopDiff (sys : SysUnderTest) : SysUnderTest :=
  { sys with diffs := sys.diffs.tail }

theorem dropTopDiff_applyTopMutation (mu : TopMutation) (sys : SysUnderTest)
    (hne : sys.diffs ≠ []) :
    dropTopDiff (applyTopMutation mu sys) = dropTopDiff sys := by
  rcases hd : sys.diffs with _ | ⟨⟨i, d⟩, rest⟩
  · exact absurd hd hne
  · cases mu with
    | putValidator s =>
      simp only [applyTopMutation, sysPutCurrentValidator, hd]
      cases diffIndexPut vKey d.currentValidatorsDiff s
          (lookupStack vKey sys.baseState.mem.currentValidators
            (rest.map (fun p => p.2.currentValidatorsDiff)) (vKey s)) <;>
        simp [dropTopDiff, discardErr, hd]
    | updateValidator s =>
      simp only [applyTopMutation, sysUpdateCurrentValidator, hd]
      cases diffIndexUpdate vKey d.currentValidatorsDiff s
          (lookupStack vKey sys.baseState.mem.currentValidators
            (rest.map (fun p => p.2.currentValidatorsDiff)) (vKey s)) <;>
        simp [dropTopDiff, discardErr, hd]
    | deleteValidator s =>
      simp only [applyTopMutation, sysDeleteCurrentValidator, hd]
      cases diffIndexDelete vKey d.currentValidatorsDiff (vKey s)
          (lookupStack vKey sys.baseState.mem.currentValidators
            (rest.map (fun p => p.2.currentValidatorsDiff)) (vKey s)) <;>
        simp [dropTopDiff, discardErr, hd]
    | putDelegator s =>
      simp only [applyTopMutation, sysPutCurrentDelegator, hd]
      cases diffIndexPut dKey d.currentDelegatorsDiff s
          (lookupStack dKey sys.baseState.mem.currentDelegators
            (rest.map (fun p => p.2.currentDelegatorsDiff)) (dKey s)) <;>
        simp [dropTopDiff, discardErr, hd]
    | updateDelegator s =>
      simp only [applyTopMutation, sysUpdateCurrentDelegator, hd]
      cases diffIndexUpdate dKey d.currentDelegatorsDiff s
          (lookupStack dKey sys.baseState.mem.currentDelegators
            (rest.map (fun p => p.2.currentDelegatorsDiff)) (dKey s)) <;>
        simp [dropTopDiff, discardErr, hd]
    | deleteDelegator s =>
      simp only [applyTopMutation, sysDeleteCurrentDelegator, hd]
      cases diffIndexDelete dKey d.currentDelegatorsDiff (dKey s)
          (lookupStack dKey sys.baseState.mem.currentDelegators
            (rest.map (fun p => p.2.currentDelegatorsDiff)) (dKey s)) <;>
        simp [dropTopDiff, discardErr, hd]

/-- C1: for every command sequence the harness generates, after every command
the ordered staker sequence of the top chain state equals, element-wise with
deep equality of all fields, the sequence produced by the reference model,
which is exactly what checkSystemAndModelContent decides after each command. -/
theorem harness_check_always_true (cmds : List HarnessCmd)
    (hall : ∀ c ∈ cmds, cmdOK c = true) :
    checkRunFrom newStakersStorageModel
      (newSystemUnderTest newStakersStorageModel) cmds = true :=
  checkRunFrom_true cmds hall inv_initial

theorem harness_check_always_true_witness :
    (∀ c ∈ wCmds, cmdOK c = true) ∧
    checkRunFrom newStakersStorageModel
      (newSystemUnderTest newStakersStorageModel) wCmds = true :=
  ⟨by decide, harness_check_always_true wCmds (by decide)⟩

/-- C2: flushBottomDiff returns false and changes nothing on an empty diff
stack; otherwise it applies the bottommost diff to the base state, sets
LastAccepted to that diff block identifier, removes the bottom diff, and
returns true. -/
theorem flushBottomDiff_spec (sys : SysUnderTest) :
    (sys.diffs = [] → flushBottomDiff sys = (sys, false)) ∧
    (∀ (l : List (Nat × Diff)) (i : Nat) (d : Diff),
      sys.diffs = l ++ [(i, d)] →
      flushBottomDiff sys =
        ({ sys with
            baseState := { sys.baseState with
              mem := applyDiffToModel d sys.baseState.mem,
              lastAccepted := i },
            diffs := l }, true)) :=
  ⟨fun h => flushBottomDiff_nil h,
   fun l i d h => flushBottomDiff_concat (by rw [h, List.concat_eq_append])⟩

theorem flushBottomDiff_spec_witness :
    wSysEmpty.diffs = [] ∧
    flushBottomDiff wSysEmpty = (wSysEmpty, false) ∧
    wSysOne.diffs = [] ++ [(1, wDiffAdd)] ∧
    flushBottomDiff wSysOne =
      ({ wSysOne with
          baseState := { wSysOne.baseState with
            mem := applyDiffToModel wDiffAdd wSysOne.baseState.mem,
            lastAccepted := 1 },
          diffs := [] }, true) :=
  ⟨rfl, (flushBottomDiff_spec wSysEmpty).1 rfl, rfl,
   (flushBottomDiff_spec wSysOne).2 [] 1 wDiffAdd rfl⟩

/-- C3: on every well-formed system state, the rebuild command (flush every
bottom diff committing after each, commit, reopen the base from the
database, clear the stack) preserves the current staker iterator of the top
view. -/
theorem rebuild_preserves_current_iterator (sys : SysUnderTest)
    (h : SysWFCurrent sys) :
    getCurrentStakerIter (rebuildStateRun sys) = getCurrentStakerIter sys := by
  obtain ⟨hd, hv, hdl⟩ := rebuildStateRun_mem sys
  obtain ⟨hbnv, hbnd, hwv, hwd⟩ := h
  rw [getCurrentStakerIter, getCurrentStakerIter]
  have h1 : curValsStack (rebuildStateRun sys) = [] := by
    rw [curValsStack, hd]
    rfl
  have h2 : curDelsStack (rebuildStateRun sys) = [] := by
    rw [curDelsStack, hd]
    rfl
  rw [h1, h2]
  simp only [chainIndexIter]
  rw [hv, hdl, chainIndexIter_eq_sorted_collapse hbnv hwv,
    chainIndexIter_eq_sorted_collapse hbnd hwd]
  rfl

theorem rebuild_preserves_current_iterator_witness :
    SysWFCurrent wSysOne ∧
    getCurrentStakerIter (rebuildStateRun wSysOne) = getCurrentStakerIter wSysOne :=
  ⟨by decide, rebuild_preserves_current_iterator wSysOne (by decide)⟩

/-- C6: every iterator the stores expose, current and pending, on the
stacked system and on the reference model, yields stakers in
non-decreasing nextTime order with ties broken by ascending txID. -/
theorem iterators_ordered_by_nextTime_txID (sys : SysUnderTest)
    (m : StakersStorageModel) :
    (getCurrentStakerIter sys).Pairwise stakerOrdClaim ∧
    (getPendingStakerIter sys).Pairwise stakerOrdClaim ∧
    m.getCurrentStakerIterator.Pairwise stakerOrdClaim ∧
    m.getPendingStakerIterator.Pairwise stakerOrdClaim :=
  ⟨(getCurrentStakerIter_sorted sys).imp stakerLe_imp_ordClaim,
   (getPendingStakerIter_sorted sys).imp stakerLe_imp_ordClaim,
   (sortStakers_sorted _).imp stakerLe_imp_ordClaim,
   (sortStakers_sorted _).imp stakerLe_imp_ordClaim⟩

/-- C4: PutCurrentValidator of a staker whose identity is already visible in
the effective view of the top layer, base or diff, fails with a
DuplicateStaker error and the harness keeps the top view unchanged. -/
theorem putCurrentValidator_duplicate (sys : SysUnderTest) (s : Staker)
    (h : (chainGetCurrentValidator sys s.subnetID s.nodeID).isSome = true) :
    sysPutCurrentValidator sys s = .error .duplicateStaker ∧
      discardErr sys (sysPutCurrentValidator sys s) = sys := by
  rcases hd : sys.diffs with _ | ⟨⟨i, d⟩, rest⟩
  · have hb : (lookupIndex vKey (vKey s)
        sys.baseState.mem.currentValidators).isSome = true := by
      simpa [chainGetCurrentValidator, curValsStack, hd, lookupStack, vKey] using h
    have he : sysPutCurrentValidator sys s = .error .duplicateStaker := by
      simp [sysPutCurrentValidator, hd, putIndex, hb]
    exact ⟨he, by rw [he]; rfl⟩
  · have hp : (diffIndexLookup vKey d.currentValidatorsDiff (vKey s)
        (lookupStack vKey sys.baseState.mem.currentValidators
          (rest.map (fun p => p.2.currentValidatorsDiff)) (vKey s))).isSome = true := by
      simpa [chainGetCurrentValidator, curValsStack, hd, lookupStack, vKey] using h
    have he : sysPutCurrentValidator sys s = .error .duplicateStaker := by
      simp [sysPutCurrentValidator, hd, diffIndexPut_dup hp]
    exact ⟨he, by rw [he]; rfl⟩

theorem putCurrentValidator_duplicate_witness :
    (chainGetCurrentValidator wSysOne wVal.subnetID wVal.nodeID).isSome = true ∧
    (sysPutCurrentValidator wSysOne wVal = .error .duplicateStaker ∧
      discardErr wSysOne (sysPutCurrentValidator wSysOne wVal) = wSysOne) :=
  ⟨by decide, putCurrentValidator_duplicate wSysOne wVal (by decide)⟩

/-- A staker whose identity is visible in none of the witness states. -/
def wMissing : Staker := ⟨9, 99, 7, .primaryNetworkValidatorCurrent, 1, 0, 5, 5⟩

/-- A current delegator identity absent from the witness states although a
validator exists at its (subnetID, nodeID). -/
def wDelMissing : Staker := ⟨7, 10, 0, .primaryNetworkDelegatorCurrent, 1, 0, 5, 5⟩

/-- C5: DeleteCurrentValidator of a staker whose validator identity is not
visible in the effective view fails with a NotFound error, and likewise,
independently, DeleteCurrentDelegator of a staker whose delegator identity
is not visible; in each case the state is unchanged on that error. -/
theorem deleteCurrent_missing_notFound (sys : SysUnderTest) (s : Staker) :
    (chainGetCurrentValidator sys s.subnetID s.nodeID = none →
      sysDeleteCurrentValidator sys s = .error .notFound ∧
        discardErr sys (sysDeleteCurrentValidator sys s) = sys) ∧
    (chainGetCurrentDelegator sys s.subnetID s.nodeID s.txID = none →
      sysDeleteCurrentDelegator sys s = .error .notFound ∧
        discardErr sys (sysDeleteCurrentDelegator sys s) = sys) := by
  constructor
  · intro hv
    rcases hd : sys.diffs with _ | ⟨⟨i, d⟩, rest⟩
    · have hbv : lookupIndex vKey (vKey s)
          sys.baseState.mem.currentValidators = none := by
        simpa [chainGetCurrentValidator, curValsStack, hd, lookupStack, vKey] using hv
      have hev : sysDeleteCurrentValidator sys s = .error .notFound := by
        simp [sysDeleteCurrentValidator, hd, deleteIndex, hbv]
      exact ⟨hev, by rw [hev]; rfl⟩
    · have hpv : diffIndexLookup vKey d.currentValidatorsDiff (vKey s)
          (lookupStack vKey sys.baseState.mem.currentValidators
            (rest.map (fun p => p.2.currentValidatorsDiff)) (vKey s)) = none := by
        simpa [chainGetCurrentValidator, curValsStack, hd, lookupStack, vKey] using hv
      have hev : sysDeleteCurrentValidator sys s = .error .notFound := by
        simp [sysDeleteCurrentValidator, hd, diffIndexDelete_notFound hpv]
      exact ⟨hev, by rw [hev]; rfl⟩
  · intro hdel
    rcases hd : sys.diffs with _ | ⟨⟨i, d⟩, rest⟩
    · have hbd : lookupIndex dKey (dKey s)
          sys.baseState.mem.currentDelegators = none := by
        simpa [chainGetCurrentDelegator, curDelsStack, hd, lookupStack, dKey] using hdel
      have hed : sysDeleteCurrentDelegator sys s = .error .notFound := by
        simp [sysDeleteCurrentDelegator, hd, deleteIndex, hbd]
      exact ⟨hed, by rw [hed]; rfl⟩
    · have hpd : diffIndexLookup dKey d.currentDelegatorsDiff (dKey s)
          (lookupStack dKey sys.baseState.mem.currentDelegators
            (rest.map (fun p => p.2.currentDelegatorsDiff)) (dKey s)) = none := by
        simpa [chainGetCurrentDelegator, curDelsStack, hd, lookupStack, dKey] using hdel
      have hed : sysDeleteCurrentDelegator sys s = .error .notFound := by
        simp [sysDeleteCurrentDelegator, hd, diffIndexDelete_notFound hpd]
      exact ⟨hed, by rw [hed]; rfl⟩

theorem deleteCurrent_missing_notFound_witness :
    chainGetCurrentValidator wSysOne wMissing.subnetID wMissing.nodeID = none ∧
    (sysDeleteCurrentValidator wSysOne wMissing = .error .notFound ∧
      discardErr wSysOne (sysDeleteCurrentValidator wSysOne wMissing) = wSysOne) ∧
    (chainGetCurrentValidator wSysOne wDelMissing.subnetID
        wDelMissing.nodeID).isSome = true ∧
    chainGetCurrentDelegator wSysOne wDelMissing.subnetID wDelMissing.nodeID
      wDelMissing.txID = none ∧
    (sysDeleteCurrentDelegator wSysOne wDelMissing = .error .notFound ∧
      discardErr wSysOne (sysDeleteCurrentDelegator wSysOne wDelMissing) = wSysOne) :=
  ⟨by decide, (deleteCurrent_missing_notFound wSysOne wMissing).1 (by decide),
   by decide, by decide,
   (deleteCurrent_missing_notFound wSysOne wDelMissing).2 (by decide)⟩

/-- C7: a Put, Update or Delete applied to the topmost layer leaves the
parent chain untouched until the diff is applied: the base state, the rest
of the stack, and every read on the parent view are unchanged. -/
theorem top_mutation_parent_frame (sys : SysUnderTest) (mu : TopMutation)
    (hne : sys.diffs ≠ []) :
    (applyTopMutation mu sys).baseState = sys.baseState ∧
    (applyTopMutation mu sys).diffs.tail = sys.diffs.tail ∧
    getCurrentStakerIter (dropTopDiff (applyTopMutation mu sys)) =
      getCurrentStakerIter (dropTopDiff sys) ∧
    (∀ subnetID nodeID : Nat,
      chainGetCurrentValidator (dropTopDiff (applyTopMutation mu sys))
          subnetID nodeID =
        chainGetCurrentValidator (dropTopDiff sys) subnetID nodeID) ∧
    (∀ subnetID nodeID txID : Nat,
      chainGetCurrentDelegator (dropTopDiff (applyTopMutation mu sys))
          subnetID nodeID txID =
        chainGetCurrentDelegator (dropTopDiff sys) subnetID nodeID txID) := by
  have h := dropTopDiff_applyTopMutation mu sys hne
  have hb : (dropTopDiff (applyTopMutation mu sys)).baseState =
      (dropTopDiff sys).baseState := congrArg SysUnderTest.baseState h
  have hdt : (dropTopDiff (applyTopMutation mu sys)).diffs =
      (dropTopDiff sys).diffs := congrArg SysUnderTest.diffs h
  refine ⟨hb, hdt, congrArg getCurrentStakerIter h, ?_, ?_⟩
  · intro subnetID nodeID
    rw [h]
  · intro subnetID nodeID txID
    rw [h]

theorem top_mutation_parent_frame_witness :
    wSysOne.diffs ≠ [] ∧
    (applyTopMutation (.putValidator wVal2) wSysOne).baseState = wSysOne.baseState :=
  ⟨by decide, (top_mutation_parent_frame wSysOne (.putValidator wVal2) (by decide)).1⟩

/-- A pending delegator, distinct from every current delegator above. -/
def wPend : Staker := ⟨3, 11, 0, .primaryNetworkDelegatorPending, 500, 100, 7000, 100⟩

/-- An initial model whose pending delegator index is nonempty and differs
from its current delegator index. -/
def c8Model : StakersStorageModel := ⟨[], [wDel], [], [wPend]⟩

/-- C8: the constructor of the system under test is claimed to seed each
base index from the matching model index before the initial commit; it does
so for current validators, current delegators and pending validators, but
its pending delegator loop ranges over the model current delegators
(stakers_model_storage_test.go line 168), so the seeded base pending
delegator index holds the current delegators of the model instead of its
pending delegators. -/
theorem constructor_seeding_diverges_on_pending_delegators :
    (newSystemUnderTest c8Model).baseState.mem.currentValidators =
      seedIndex vKey c8Model.currentValidators ∧
    (newSystemUnderTest c8Model).baseState.mem.currentDelegators =
      seedIndex dKey c8Model.currentDelegators ∧
    (newSystemUnderTest c8Model).baseState.mem.pendingValidators =
      seedIndex vKey c8Model.pendingValidators ∧
    (newSystemUnderTest c8Model).baseState.mem.pendingDelegators = [wDel] ∧
    seedIndex dKey c8Model.pendingDelegators = [wPend] ∧
    (newSystemUnderTest c8Model).baseState.mem.pendingDelegators ≠
      seedIndex dKey c8Model.pendingDelegators :=
  ⟨rfl, rfl, rfl, rfl, rfl, by decide⟩

/-- Events of the snowman getter message handlers, in program order: the
debug log emitted when the StateSyncableVM interface assertion fails, the
state sync method invocations, and the sends. The Boolean of a call event
is true when the receiver is the zero interface value produced by a failed
assertion (getter.go lines 47-75). -/
inductive GetterEvent where
  | logDroppedFrontier
  | logDroppedAccepted
  | callGetLastSummary (onZeroReceiver : Bool)
  | callIsSummaryAccepted (onZeroReceiver : Bool) (key : Nat)
  | sendStateSummaryFrontier
  | sendAcceptedStateSummary
deriving DecidableEq, Repr

/-- The getter, abstracted over the wrapped VM: whether the dynamic
StateSyncableVM assertion succeeds, and the observable behaviour of the two
state sync methods when they are invoked. Byte strings and errors are
opaque numbers; summaries are key and content pairs. -/
structure GetterVM where
  implementsStateSync : Bool
  lastSummary : Except Nat (Nat × Nat)
  summaryAccepted : Nat → Bool × Option Nat

/-- GetStateSummaryFrontier (getter.go lines 47-58): a failed assertion only
logs — the handler does not return there — and StateSyncGetLastSummary is
then invoked on whatever receiver the assertion produced. The result pairs
the emitted trace with the returned error, if any. -/
def getStateSummaryFrontier (g : GetterVM) : List GetterEvent × Option Nat :=
  let dropLog : List GetterEvent :=
    if g.implementsStateSync then [] else [.logDroppedFrontier]
  let callTrace := dropLog ++ [.callGetLastSummary (!g.implementsStateSync)]
  match g.lastSummary with
  | .error e => (callTrace, some e)
  | .ok _ => (callTrace ++ [.sendStateSummaryFrontier], none)

/-- The accepted keys loop of GetAcceptedStateSummary (getter.go lines
66-72): a key is kept when StateSyncIsSummaryAccepted affirms it without
error, an error aborts the loop, and otherwise the key is skipped. -/
def acceptedKeysLoop (g : GetterVM) (onZero : Bool) :
    List Nat → List GetterEvent × Except Nat (List Nat)
  | [] => ([], .ok [])
  | k :: ks =>
    let ev := GetterEvent.callIsSummaryAccepted onZero k
    let r := g.summaryAccepted k
    if r.1 = true ∧ r.2 = none then
      match acceptedKeysLoop g onZero ks with
      | (evs, .error e) => (ev :: evs, .error e)
      | (evs, .ok rest) => (ev :: evs, .ok (k :: rest))
    else
      match r.2 with
      | some e => ([ev], .error e)
      | none =>
        match acceptedKeysLoop g onZero ks with
        | (evs, res) => (ev :: evs, res)

/-- GetAcceptedStateSummary (getter.go lines 60-75): same shape — a failed
assertion logs without returning, and the loop then invokes
StateSyncIsSummaryAccepted on the zero receiver for each key. -/
def getAcceptedStateSummary (g : GetterVM) (keys : List Nat) :
    List GetterEvent × Option Nat :=
  let dropLog : List GetterEvent :=
    if g.implementsStateSync then [] else [.logDroppedAccepted]
  match acceptedKeysLoop g (!g.implementsStateSync) keys with
  | (evs, .error e) => (dropLog ++ evs, some e)
  | (evs, .ok _) => (dropLog ++ evs ++ [.sendAcceptedStateSummary], none)

/-- C9: when the wrapped VM does not implement StateSyncableVM, both
handlers log the failed assertion yet do not return: their traces still
contain the state sync invocations, on the zero receiver the failed
assertion produced — StateSyncGetLastSummary unconditionally, and
StateSyncIsSummaryAccepted for the first requested key whenever there is
one. -/
theorem getter_guard_does_not_return (g : GetterVM) (keys : List Nat)
    (hno : g.implementsStateSync = false) :
    GetterEvent.logDroppedFrontier ∈ (getStateSummaryFrontier g).1 ∧
    GetterEvent.callGetLastSummary true ∈ (getStateSummaryFrontier g).1 ∧
    GetterEvent.logDroppedAccepted ∈ (getAcceptedStateSummary g keys).1 ∧
    (∀ k ks, keys = k :: ks →
      GetterEvent.callIsSummaryAccepted true k ∈ (getAcceptedStateSummary g keys).1) := by
  refine ⟨?_, ?_, ?_, ?_⟩
  · rw [getStateSummaryFrontier]
    rcases g.lastSummary with e | s <;> simp [hno]
  · rw [getStateSummaryFrontier]
    rcases g.lastSummary with e | s <;> simp [hno]
  · rw [getAcceptedStateSummary]
    rcases hl : acceptedKeysLoop g (!g.implementsStateSync) keys with ⟨evs, r⟩
    rcases r with e | acc <;> simp [hno]
  · intro k ks hk
    subst hk
    rw [getAcceptedStateSummary]
    have hev : ∀ p : List GetterEvent × Except Nat (List Nat),
        acceptedKeysLoop g (!g.implementsStateSync) (k :: ks) = p →
        GetterEvent.callIsSummaryAccepted (!g.implementsStateSync) k ∈ p.1 := by
      intro p hp
      rw [acceptedKeysLoop] at hp
      by_cases hc : (g.summaryAccepted k).1 = true ∧ (g.summaryAccepted k).2 = none
      · rw [if_pos hc] at hp
        rw [← hp]
        rcases acceptedKeysLoop g (!g.implementsStateSync) ks with ⟨evs, r⟩
        rcases r with e | rest <;> simp
      · rw [if_neg hc] at hp
        rcases hr : (g.summaryAccepted k).2 with _ | e
        · rw [hr] at hp
          rw [← hp]
          rcases acceptedKeysLoop g (!g.implementsStateSync) ks with ⟨evs, r⟩
          simp
        · rw [hr] at hp
          rw [← hp]
          simp
    rcases hl : acceptedKeysLoop g (!g.implementsStateSync) (k :: ks) with ⟨evs, r⟩
    have hmem := hev _ hl
    rw [hno] at hmem
    rcases r with e | acc <;> simp [hno] <;> simpa using hmem

/-- A VM that does not implement state sync, used to instantiate the getter
property. -/
def wGetterVM : GetterVM :=
  ⟨false, .ok (1, 2), fun _ => (true, none)⟩

theorem getter_guard_does_not_return_witness :
    wGetterVM.implementsStateSync = false ∧
    GetterEvent.callGetLastSummary true ∈ (getStateSummaryFrontier wGetterVM).1 ∧
    GetterEvent.callIsSummaryAccepted true 7 ∈
      (getAcceptedStateSummary wGetterVM [7]).1 :=
  ⟨rfl, (getter_guard_does_not_return wGetterVM [7] rfl).2.1,
   (getter_guard_does_not_return wGetterVM [7] rfl).2.2.2 7 [] rfl⟩

/-- HashLength of the merkledb (node.go line 15). -/
def HashLength : Nat := 32

/-- A merkledb node (node.go lines 18-34): the persisted value and children
of the dbNode plus the key and the cached value digest. Byte strings are
lists of bytes; a child entry maps a token to its compressed key. -/
structure MNode where
  value : Option (List Nat)
  children : List (Nat × List Nat)
  key : List Nat
  valueDigest : Option (List Nat)
deriving DecidableEq, Repr

/-- setValueDigest (node.go lines 85-91): keep the value itself when it is
Nothing or shorter than HashLength, hash it otherwise. ComputeHash256 is
passed in as the abstract hash function; the Value of Nothing is the zero
byte string, as in the source Maybe. -/
def MNode.setValueDigest (hash : List Nat → List Nat) (n : MNode) : MNode :=
  if n.value.isNone ∨ (n.value.getD []).length < HashLength then
    { n with valueDigest := n.value }
  else
    { n with valueDigest := some (hash (n.value.getD [])) }

/-- setValue (node.go lines 80-83): store the value, then recompute the
digest. -/
def MNode.setValue (hash : List Nat → List Nat) (n : MNode)
    (val : Option (List Nat)) : MNode :=
  MNode.setValueDigest hash { n with value := val }

/-- parseNode (node.go lines 48-60): decode the persisted dbNode, attach the
key, and set the digest. The codec is abstract; it yields the decoded value
and children, or a decoding error. -/
def parseNode (hash : List Nat → List Nat)
    (decodeDBNode : List Nat → Except Nat (Option (List Nat) × List (Nat × List Nat)))
    (key nodeBytes : List Nat) : Except Nat MNode :=
  match decodeDBNode nodeBytes with
  | .error e => .error e
  | .ok (v, cs) =>
    .ok (MNode.setValueDigest hash
      { value := v, children := cs, key := key, valueDigest := none })

theorem setValueDigest_value (hash : List Nat → List Nat) (n : MNode) :
    (MNode.setValueDigest hash n).value = n.value := by
  rw [MNode.setValueDigest]
  by_cases hc : n.value.isNone ∨ (n.value.getD []).length < HashLength
  · rw [if_pos hc]
  · rw [if_neg hc]

theorem setValueDigest_digest (hash : List Nat → List Nat) (n : MNode) :
    (MNode.setValueDigest hash n).valueDigest =
      if n.value = none ∨ (n.value.getD []).length < HashLength then n.value
      else some (hash (n.value.getD [])) := by
  rw [MNode.setValueDigest]
  by_cases hc : n.value.isNone ∨ (n.value.getD []).length < HashLength
  · rw [if_pos hc, if_pos (by simpa [Option.isNone_iff_eq_none] using hc)]
  · rw [if_neg hc, if_neg (by simpa [Option.isNone_iff_eq_none] using hc)]

/-- C10: after setValue, and for every node parseNode returns, the value
digest is the value itself when the value is Nothing or shorter than
HashLength bytes, and is Some of the HashLength-byte hash of the value
otherwise. -/
theorem valueDigest_rule (hash : List Nat → List Nat)
    (hlen : ∀ b, (hash b).length = HashLength)
    (n : MNode) (val : Option (List Nat))
    (decodeDBNode : List Nat → Except Nat (Option (List Nat) × List (Nat × List Nat)))
    (key nodeBytes : List Nat) :
    (MNode.setValue hash n val).value = val ∧
    ((val = none ∨ (val.getD []).length < HashLength) →
      (MNode.setValue hash n val).valueDigest = val) ∧
    (∀ v, val = some v → HashLength ≤ v.length →
      (MNode.setValue hash n val).valueDigest = some (hash v) ∧
        (hash v).length = HashLength) ∧
    (∀ m, parseNode hash decodeDBNode key nodeBytes = .ok m →
      ((m.value = none ∨ (m.value.getD []).length < HashLength) →
        m.valueDigest = m.value) ∧
      (∀ v, m.value = some v → HashLength ≤ v.length →
        m.valueDigest = some (hash v) ∧ (hash v).length = HashLength)) := by
  have hgen : ∀ n0 : MNode,
      ((n0.value = none ∨ (n0.value.getD []).length < HashLength) →
        (MNode.setValueDigest hash n0).valueDigest = n0.value) ∧
      (∀ v, n0.value = some v → HashLength ≤ v.length →
        (MNode.setValueDigest hash n0).valueDigest = some (hash v) ∧
          (hash v).length = HashLength) := by
    intro n0
    constructor
    · intro hc
      rw [setValueDigest_digest, if_pos hc]
    · intro v hv hlv
      rw [setValueDigest_digest, if_neg ?_, hv]
      · exact ⟨rfl, hlen v⟩
      · rw [hv]
        rintro (h | h)
        · exact Option.some_ne_none v h
        · simp only [Option.getD_some] at h
          omega
  refine ⟨setValueDigest_value hash _, ?_, ?_, ?_⟩
  · intro hc
    rw [MNode.setValue]
    exact (hgen _).1 hc
  · intro v hv hlv
    rw [MNode.setValue]
    exact (hgen _).2 v hv hlv
  · intro m hm
    rw [parseNode] at hm
    rcases hdec : decodeDBNode nodeBytes with e | vc
    · rw [hdec] at hm
      exact absurd hm (by simp)
    · rcases vc with ⟨v0, cs⟩
      rw [hdec] at hm
      simp only [Except.ok.injEq] at hm
      subst hm
      rw [setValueDigest_value]
      exact hgen ⟨v0, cs, key, none⟩

/-- A fixed-output hash standing in for ComputeHash256 in the witnesses. -/
def wHash : List Nat → List Nat := fun _ => List.replicate HashLength 0

/-- A decoder returning one long-valued node, for the witnesses. -/
def wDecode : List Nat → Except Nat (Option (List Nat) × List (Nat × List Nat)) :=
  fun _ => .ok (some (List.replicate HashLength 1), [])

/-- A starting node for the witnesses. -/
def wNode : MNode := ⟨none, [], [], none⟩

theorem valueDigest_rule_witness :
    (∀ b, (wHash b).length = HashLength) ∧
    (MNode.setValue wHash wNode (some [1, 2])).valueDigest = some [1, 2] ∧
    (MNode.setValue wHash wNode (some (List.replicate HashLength 1))).valueDigest =
        some (wHash (List.replicate HashLength 1)) ∧
      (wHash (List.replicate HashLength 1)).length = HashLength :=
  ⟨fun b => by simp [wHash],
   (valueDigest_rule wHash (fun b => by simp [wHash]) wNode (some [1, 2])
       wDecode [] []).2.1 (Or.inr (by decide)),
   (valueDigest_rule wHash (fun b => by simp [wHash]) wNode
       (some (List.replicate HashLength 1)) wDecode [] []).2.2.1
     (List.replicate HashLength 1) rfl (by simp)⟩

end AvalancheStakers
